import Mathlib

/-!
Verification development for the collection-preparation script `update.py`.

The script rewrites documentation-bearing string assignments inside plugin
source files.  Python strings are modelled as `List Char`; the embedded
YAML-subset documents handled by the external `ruamel.yaml` round-trip codec
are modelled by explicit ordered-mapping types together with a concrete
executable encoder and decoder for the block subset the script manipulates.
All machine-level partiality (KeyError, IndexError, AttributeError, parse
errors) is modelled with `Option`, `none` standing for a raised exception.
-/

namespace CollectionPrep

/-- Python strings are finite character sequences. -/
abbrev Str := List Char

/-- ASCII model of `str.lower` on a single character.  The identifiers the
script lower-cases are ASCII module-name tokens. -/
def pyLowerChar : Char → Char
  | 'A' => 'a' | 'B' => 'b' | 'C' => 'c' | 'D' => 'd' | 'E' => 'e'
  | 'F' => 'f' | 'G' => 'g' | 'H' => 'h' | 'I' => 'i' | 'J' => 'j'
  | 'K' => 'k' | 'L' => 'l' | 'M' => 'm' | 'N' => 'n' | 'O' => 'o'
  | 'P' => 'p' | 'Q' => 'q' | 'R' => 'r' | 'S' => 's' | 'T' => 't'
  | 'U' => 'u' | 'V' => 'v' | 'W' => 'w' | 'X' => 'x' | 'Y' => 'y'
  | 'Z' => 'z'
  | c => c

/-- ASCII model of `str.upper` on a single character. -/
def pyUpperChar : Char → Char
  | 'a' => 'A' | 'b' => 'B' | 'c' => 'C' | 'd' => 'D' | 'e' => 'E'
  | 'f' => 'F' | 'g' => 'G' | 'h' => 'H' | 'i' => 'I' | 'j' => 'J'
  | 'k' => 'K' | 'l' => 'L' | 'm' => 'M' | 'n' => 'N' | 'o' => 'O'
  | 'p' => 'P' | 'q' => 'Q' | 'r' => 'R' | 's' => 'S' | 't' => 'T'
  | 'u' => 'U' | 'v' => 'V' | 'w' => 'W' | 'x' => 'X' | 'y' => 'Y'
  | 'z' => 'Z'
  | c => c

/-- `str.lower` applied to a whole string. -/
def pyLower (s : Str) : Str := s.map pyLowerChar

/-- `str.upper` applied to a whole string. -/
def pyUpper (s : Str) : Str := s.map pyUpperChar

/-- `str.startswith`: boolean prefix test. -/
def prefixB : Str → Str → Bool
  | [], _ => true
  | _ :: _, [] => false
  | a :: as, b :: bs => a = b && prefixB as bs

/-- Python `pat in s` substring test. -/
def containsSub (pat : Str) : Str → Bool
  | [] => prefixB pat []
  | c :: rest => prefixB pat (c :: rest) || containsSub pat rest

/-- Python `str.replace(pat, repl)`: left-to-right non-overlapping
replacement of every occurrence.  (The script only calls it with a
non-empty pattern, which the guard `pat ≠ []` reflects.) -/
def replaceSub (pat repl : Str) : Str → Str
  | [] => []
  | c :: rest =>
    if prefixB pat (c :: rest) && !pat.isEmpty then
      repl ++ replaceSub pat repl (List.drop (pat.length - 1) rest)
    else
      c :: replaceSub pat repl rest
termination_by s => s.length
decreasing_by
  · simp only [List.length_cons, List.length_drop]
    omega
  · simp

/-- Python `str.split(sep)` for a one-character separator: always returns at
least one (possibly empty) piece. -/
def splitOnChar (sep : Char) : Str → List Str
  | [] => [[]]
  | c :: rest =>
    match splitOnChar sep rest with
    | [] => [[]]
    | cur :: done => if c = sep then [] :: cur :: done else (c :: cur) :: done

/-- Python `"\n".join(lines)`. -/
def joinNL : List Str → Str
  | [] => []
  | [l] => l
  | l :: l2 :: rest => l ++ '\n' :: joinNL (l2 :: rest)

/-- `str.splitlines` for newline-separated text (model: split on the
newline character). -/
def splitNL (s : Str) : List Str := splitOnChar '\n' s

/-- Apply a function to the last element of a list, as the script does with
`chars[-1] = chars[-1].lower()`. -/
def mapLast (f : Char → Char) : Str → Str
  | [] => []
  | [c] => [f c]
  | c :: c2 :: rest => c :: mapLast f (c2 :: rest)

/-! ## Structured documents

Model of the ordered mappings produced by the external `ruamel.yaml`
round-trip codec for the block-style YAML subset the script manipulates:
ordered maps whose values are scalars or nested maps. -/

mutual
/-- A YAML value: a scalar or a nested mapping. -/
inductive YVal where
  | scalar : Str → YVal
  | submap : YMap → YVal
  deriving DecidableEq
/-- A nested ordered YAML mapping. -/
inductive YMap where
  | nil : YMap
  | cons : Str → YVal → YMap → YMap
  deriving DecidableEq
end

instance : Inhabited YVal := ⟨YVal.scalar []⟩

instance : Inhabited YMap := ⟨YMap.nil⟩

/-- A decoded top-level document: an ordered association list. -/
abbrev YDoc := List (Str × YVal)

/-- The keys of a nested mapping. -/
def keysM : YMap → List Str
  | .nil => []
  | .cons k _ rest => k :: keysM rest

/-- Convert a nested mapping to the top-level association-list form. -/
def toDoc : YMap → YDoc
  | .nil => []
  | .cons k v rest => (k, v) :: toDoc rest

/-- The key order of a document. -/
def keysOf (d : YDoc) : List Str := d.map Prod.fst

/-- Python `key in document`. -/
def containsKey (k : Str) (d : YDoc) : Bool := d.any (fun e => e.1 = k)

/-- Python `document[key]` restricted to scalar values; `none` models both a
KeyError and a non-string value (which the script would subsequently crash
on when calling string methods). -/
def lookupScalar (k : Str) : YDoc → Option Str
  | [] => none
  | (k2, v) :: rest =>
    if k2 = k then
      match v with
      | .scalar s => some s
      | .submap _ => none
    else lookupScalar k rest

/-- Python `document[key] = scalar` for an existing key: the entry keeps its
position, only the value changes. -/
def setKey (k : Str) (s : Str) (d : YDoc) : YDoc :=
  d.map (fun e => if e.1 = k then (k, YVal.scalar s) else e)

/-! ### Encoder

Model of `ruamel.yaml.dump(..., RoundTripDumper)` on the block subset:
scalar entries as `key: value` lines, nested maps indented two further
spaces below a `key:` line. -/

/-- An indentation prefix of `n` spaces. -/
def indentStr (n : Nat) : Str := List.replicate n ' '

mutual
/-- Lines encoding a single `key: value` entry at an indentation level. -/
def encValLines (ind : Nat) (k : Str) : YVal → List Str
  | .scalar v => [indentStr ind ++ k ++ ':' :: ' ' :: v]
  | .submap m => (indentStr ind ++ k ++ [':']) :: encMapLines (ind + 2) m
/-- Lines encoding a nested mapping at an indentation level. -/
def encMapLines (ind : Nat) : YMap → List Str
  | .nil => []
  | .cons k v rest => encValLines ind k v ++ encMapLines ind rest
end

/-- Lines encoding a whole top-level document. -/
def encodeMapLines (d : YDoc) : List Str :=
  (d.map (fun e => encValLines 0 e.1 e.2)).flatten

/-! ### Decoder

Model of `ruamel.yaml.load(..., RoundTripLoader)` on the same subset; a
parse failure (including the duplicate-key error the library raises)
is `none`. -/

/-- Split a line at its first colon. -/
def splitAtColon : Str → Option (Str × Str)
  | [] => none
  | c :: rest =>
    if c = ':' then some ([], rest)
    else (splitAtColon rest).map (fun p => (c :: p.1, p.2))

/-- Parse one line into indentation depth, key, and an optional scalar
value (`none` marks a `key:` line opening a nested map). -/
def parseMapLine (l : Str) : Option (Nat × Str × Option Str) :=
  let ind := (l.takeWhile (fun c => c = ' ')).length
  let rest := l.dropWhile (fun c => c = ' ')
  match splitAtColon rest with
  | none => none
  | some (k, after) =>
    match after with
    | [] => some (ind, k, none)
    | ' ' :: v => some (ind, k, some v)
    | _ => none

/-- Build a nested mapping from parsed lines, consuming entries at the given
indentation until a dedent; rejects duplicate keys at a level. -/
def buildMap : Nat → Nat → List (Nat × Str × Option Str) →
    Option (YMap × List (Nat × Str × Option Str))
  | 0, _, _ => none
  | _ + 1, _, [] => some (.nil, [])
  | fuel + 1, ind, (i, k, mv) :: rest =>
    if i < ind then some (.nil, (i, k, mv) :: rest)
    else if ind < i then none
    else
      match mv with
      | some v =>
        match buildMap fuel ind rest with
        | none => none
        | some (m, rem) =>
          if k ∈ keysM m then none else some (.cons k (.scalar v) m, rem)
      | none =>
        match buildMap fuel (ind + 2) rest with
        | none => none
        | some (sub, rem) =>
          match buildMap fuel ind rem with
          | none => none
          | some (m, rem2) =>
            if k ∈ keysM m then none else some (.cons k (.submap sub) m, rem2)

/-- Decode a document from text. -/
def decodeMap (s : Str) : Option YDoc :=
  match (splitNL s).mapM parseMapLine with
  | none => none
  | some pls =>
    match buildMap (pls.length * 2 + 4) 0 pls with
    | some (m, []) => some (toDoc m)
    | _ => none

/-! ## Short-description deriver (`update_short_description`) -/

/-- The fixed special-case table for resource tokens (`SPECIALS`). -/
def SPECIALS : List (Str × Str) :=
  [("ospfv2".data, "OSPFv2".data),
   ("interfaces".data, "Interfaces".data),
   ("static".data, "Static".data)]

/-- Association-list lookup, modelling Python dict indexing. -/
def lookupAssoc (t : List (Str × Str)) (k : Str) : Option Str :=
  match t with
  | [] => none
  | (k2, v) :: rest => if k2 = k then some v else lookupAssoc rest k

/-- The trailing-`s` step of the deriver:
if the lower-cased final character of the resource string is `s`, lower-case
just the final character; `none` models the IndexError on an empty string. -/
def lowerTrailingS (r : Str) : Option Str :=
  match r.getLast? with
  | none => none
  | some c => some (if pyLowerChar c = 's' then mapLast pyLowerChar r else r)

/-- The resource-name branch of the deriver: split the module name on
underscores, map the second token through `SPECIALS` or upper-case it,
fix a trailing `s`, and append a non-`"global"` third token. -/
def resourceShort (module_name : Str) : Option Str :=
  let parts := splitOnChar '_' module_name
  match parts.get? 1 with
  | none => none
  | some p1 =>
    let r0 := pyLower p1
    let r1 := match lookupAssoc SPECIALS r0 with
              | some sp => sp
              | none => pyUpper r0
    match lowerTrailingS r1 with
    | none => none
    | some r2 =>
      let r3 := match parts.get? 2 with
                | some p2 => if p2 ≠ "global".data then r2 ++ ' ' :: p2 else r2
                | none => r2
      some (r3 ++ " resource module".data)

/-- The deprecation step: prepend the deprecation prefix when the document
has a `deprecated` key and the short description does not already start
with the literal `(deprecated)`. -/
def deprecationStep (doc : YDoc) (s : Str) : Str :=
  if containsKey "deprecated".data doc && !prefixB "(deprecated)".data s then
    "(deprecated) ".data ++ s
  else s

/-- The keys whose joint presence in the RETURN document marks a resource
module (`rm_rets`). -/
def rmRets : List Str := ["after".data, "before".data, "commands".data]

/-- Derive the new short description from the decoded RETURN and
DOCUMENTATION documents and the module name. -/
def deriveShort (ret_section doc_section : YDoc) (module_name : Str) : Option Str :=
  match lookupScalar "short_description".data doc_section with
  | none => none
  | some s0 =>
    let base := if rmRets.all (fun k => containsKey k ret_section) then
                  resourceShort module_name
                else some s0
    match base with
    | none => none
    | some s1 => some (deprecationStep doc_section s1)

/-! ## Helper lemmas on the string primitives -/

/-- A string is a boolean prefix of itself followed by anything. -/
theorem prefixB_self_append (p t : Str) : prefixB p (p ++ t) = true := by
  induction p with
  | nil => rfl
  | cons a as ih => simp [prefixB, ih]

/-- The single-character lower-casing sends exactly `s` and `S` to `s`. -/
theorem pyLowerChar_eq_s_iff (c : Char) : pyLowerChar c = 's' ↔ c = 's' ∨ c = 'S' := by
  constructor
  · intro h
    unfold pyLowerChar at h
    split at h <;> simp_all
  · rintro (rfl | rfl) <;> decide

/-! ## Claims about the short-description deriver -/

/-- A RETURN document with the three resource keys. -/
def retResourceDoc : YDoc :=
  [("after".data, .scalar "a".data),
   ("before".data, .scalar "b".data),
   ("commands".data, .scalar "c".data)]

/-- A DOCUMENTATION document with only a short description. -/
def docShortX : YDoc := [("short_description".data, .scalar "x".data)]

/-- A DOCUMENTATION document marked deprecated whose short description
starts with the deprecation marker but not with the space-terminated
prefix. -/
def docDepX : YDoc :=
  [("short_description".data, .scalar "(deprecated)x".data),
   ("deprecated".data, .scalar "y".data)]

/-- C1, counterexample: for `ios_interfaces` with the three resource keys
present the deriver produces `Interfaces resource module`, not the claimed
`Interface resource module` - lower-casing the trailing `s` of
`Interfaces` does not delete it. -/
theorem deriveShort_ios_interfaces_cex :
    deriveShort retResourceDoc docShortX "ios_interfaces".data =
      some "Interfaces resource module".data ∧
    some "Interfaces resource module".data ≠
      some "Interface resource module".data := by
  decide

/-- C1, amended: for module name `ios_interfaces`, any RETURN document whose
keys include `after`, `before` and `commands`, and any documentation
document with a scalar short description and no `deprecated` key, the
derived short description is `Interfaces resource module`. -/
theorem deriveShort_ios_interfaces (ret doc : YDoc) (s0 : Str)
    (hret : rmRets.all (fun k => containsKey k ret) = true)
    (hs : lookupScalar "short_description".data doc = some s0)
    (hdep : containsKey "deprecated".data doc = false) :
    deriveShort ret doc "ios_interfaces".data =
      some "Interfaces resource module".data := by
  unfold deriveShort
  rw [hs]
  simp only [hret, if_true]
  have hr : resourceShort "ios_interfaces".data =
      some "Interfaces resource module".data := by decide
  rw [hr]
  unfold deprecationStep
  simp [hdep]

/-- C1, witness for the amended theorem. -/
theorem deriveShort_ios_interfaces_witness :
    deriveShort retResourceDoc docShortX "ios_interfaces".data =
      some "Interfaces resource module".data :=
  deriveShort_ios_interfaces retResourceDoc docShortX "x".data
    (by decide) (by decide) (by decide)

/-- C2, counterexample: the resource string `VLANS` does not end in a
lower-case `s`, yet the trailing-`s` step changes it (to `VLANs`), because
the code tests the lower-cased final character. -/
theorem lowerTrailingS_claim_cex :
    ("VLANS".data).getLast? ≠ some 's' ∧
    lowerTrailingS "VLANS".data = some "VLANs".data ∧
    "VLANs".data ≠ "VLANS".data := by
  decide

/-- C2, amended: the trailing-`s` step lower-cases the final character of
the resource string exactly when that final character is `s` or `S` (that
is, when its lower-casing is `s`); otherwise the string is unchanged. -/
theorem lowerTrailingS_spec (r : Str) (c : Char) (h : r.getLast? = some c) :
    lowerTrailingS r = some (if c = 's' ∨ c = 'S' then mapLast pyLowerChar r else r) := by
  unfold lowerTrailingS
  rw [h]
  show some (if pyLowerChar c = 's' then mapLast pyLowerChar r else r) =
    some (if c = 's' ∨ c = 'S' then mapLast pyLowerChar r else r)
  congr 1
  by_cases hc : pyLowerChar c = 's'
  · rw [if_pos hc, if_pos ((pyLowerChar_eq_s_iff c).mp hc)]
  · rw [if_neg hc, if_neg (fun h2 => hc ((pyLowerChar_eq_s_iff c).mpr h2))]

/-- C2, witness for the amended theorem. -/
theorem lowerTrailingS_spec_witness :
    lowerTrailingS "VLANS".data =
      some (if 'S' = 's' ∨ 'S' = 'S' then mapLast pyLowerChar "VLANS".data
            else "VLANS".data) :=
  lowerTrailingS_spec "VLANS".data 'S' (by decide)

/-- C5, counterexample: the documentation document contains `deprecated`
and the short description `(deprecated)x` does not start with the literal
`(deprecated) ` (with trailing space), yet the deriver does not prepend the
prefix, because the code checks `startswith` against `(deprecated)` without
the trailing space. -/
theorem deprecation_claim_cex :
    containsKey "deprecated".data docDepX = true ∧
    prefixB "(deprecated) ".data "(deprecated)x".data = false ∧
    deriveShort [] docDepX "m".data = some "(deprecated)x".data ∧
    some "(deprecated)x".data ≠
      some ("(deprecated) ".data ++ "(deprecated)x".data) := by
  decide

/-- C5, amended: the deprecation step prepends `(deprecated) ` exactly when
the documentation document contains a `deprecated` key and the current
short description does not already start with the literal `(deprecated)`
(without the trailing space); consequently applying the step to its own
output never adds the prefix again. -/
theorem deprecationStep_spec (doc : YDoc) (s : Str) :
    (deprecationStep doc s = "(deprecated) ".data ++ s ↔
      containsKey "deprecated".data doc = true ∧
      prefixB "(deprecated)".data s = false) ∧
    deprecationStep doc (deprecationStep doc s) = deprecationStep doc s := by
  have hsplit : ("(deprecated) ".data : Str) ++ s = "(deprecated)".data ++ (' ' :: s) := by
    rfl
  have hpre : prefixB "(deprecated)".data ("(deprecated) ".data ++ s) = true := by
    rw [hsplit]
    exact prefixB_self_append _ _
  have hne : s ≠ "(deprecated) ".data ++ s := by
    intro h
    have hlen := congrArg List.length h
    simp at hlen
    omega
  by_cases h1 : containsKey "deprecated".data doc = true
  · by_cases h2 : prefixB "(deprecated)".data s = true
    · have hstep : deprecationStep doc s = s := by
        simp [deprecationStep, h1, h2]
      refine ⟨⟨fun h => absurd (hstep.symm.trans h) hne, ?_⟩, ?_⟩
      · rintro ⟨_, g2⟩
        exact absurd h2 (by simp [g2])
      · rw [hstep, hstep]
    · have h2f : prefixB "(deprecated)".data s = false := by
        revert h2
        cases prefixB "(deprecated)".data s <;> simp
      have hstep : deprecationStep doc s = "(deprecated) ".data ++ s := by
        simp [deprecationStep, h1, h2f]
      have hstep2 : deprecationStep doc ("(deprecated) ".data ++ s) =
          "(deprecated) ".data ++ s := by
        unfold deprecationStep
        rw [hpre]
        simp
      constructor
      · constructor
        · intro _
          exact ⟨h1, h2f⟩
        · intro _
          exact hstep
      · rw [hstep, hstep2]
  · have h1f : containsKey "deprecated".data doc = false := by
      revert h1
      cases containsKey "deprecated".data doc <;> simp
    have hstep : deprecationStep doc s = s := by
      simp [deprecationStep, h1f]
    refine ⟨⟨fun h => absurd (hstep.symm.trans h) hne, ?_⟩, ?_⟩
    · rintro ⟨g1, _⟩
      exact absurd g1 (by simp [h1f])
    · rw [hstep, hstep]

/-! ## Syntax-tree model

A processed file is a sequence of top-level statements.  Assignment
statements carry a non-empty target list and a value; the value of the
documentation-bearing assignments is a string literal, while the metadata
normalizer writes a literal dict node. -/

/-- An assignment target: a plain identifier (which has an `id`
attribute), a tuple target (modelled as a tuple of identifier names), or
an attribute target (which, like a tuple, has no `id` attribute). -/
inductive PyTarget where
  | nameT : Str → PyTarget
  | tupleT : List Str → PyTarget
  | attrT : Str → PyTarget
  deriving DecidableEq

/-- The value stored in an assignment: a string literal or a literal
dict of string pairs (as written by the metadata normalizer). -/
inductive AVal where
  | strv : Str → AVal
  | dictv : List (Str × Str) → AVal
  deriving DecidableEq

/-- A top-level statement: an assignment `targets[0], ... = value` (with
its first target explicit, so targets are non-empty as in the Python
syntax tree), or any other statement, which has no `targets` attribute. -/
inductive PyStmt where
  | assignS : PyTarget → List PyTarget → AVal → PyStmt
  | exprS : PyStmt
  deriving DecidableEq

/-- Reading the `id` attribute of a target: only a plain identifier has
one; `none` models the AttributeError raised on tuple and attribute
targets. -/
def targetIdAttr : PyTarget → Option Str
  | .nameT n => some n
  | .tupleT _ => none
  | .attrT _ => none

/-- `find_assigment_in_ast`: the list comprehension over the body.  Every
statement with targets has its first target's `id` read; a tuple or
attribute first target raises (modelled `none`), aborting the whole
lookup. -/
def find_assigment_in_ast (name : Str) : List PyStmt → Option (List PyStmt)
  | [] => some []
  | .exprS :: rest => find_assigment_in_ast name rest
  | .assignS t ts v :: rest =>
    match targetIdAttr t with
    | none => none
    | some id0 =>
      match find_assigment_in_ast name rest with
      | none => none
      | some tl => some (if id0 = name then .assignS t ts v :: tl else tl)

/-- A statement is harmless for the locator when it either has no targets
or its first target is a plain identifier. -/
def stmtOk : PyStmt → Bool
  | .assignS t _ _ => (targetIdAttr t).isSome
  | .exprS => true

/-- The locator succeeds exactly when every statement with targets has a
plain-identifier first target; the condition does not mention the searched
name. -/
theorem find_ok_iff (name : Str) (body : List PyStmt) :
    (find_assigment_in_ast name body).isSome = true ↔ ∀ s ∈ body, stmtOk s = true := by
  induction body with
  | nil => simp [find_assigment_in_ast]
  | cons s rest ih =>
    cases s with
    | exprS =>
      simp only [find_assigment_in_ast, List.mem_cons]
      constructor
      · intro h s2 hs2
        rcases hs2 with rfl | hs2
        · rfl
        · exact (ih.mp h) s2 hs2
      · intro h
        exact ih.mpr (fun s2 hs2 => h s2 (Or.inr hs2))
    | assignS t ts v =>
      cases ht : targetIdAttr t with
      | none =>
        simp [find_assigment_in_ast, ht, stmtOk]
      | some id0 =>
        cases hf : find_assigment_in_ast name rest with
        | none =>
          have hrest : ¬ ∀ s ∈ rest, stmtOk s = true := by
            intro hall
            have := ih.mpr hall
            rw [hf] at this
            simp at this
          simp only [find_assigment_in_ast, ht, hf]
          constructor
          · intro h
            simp at h
          · intro h
            exact absurd (fun s2 hs2 => h s2 (List.mem_cons_of_mem _ hs2)) hrest
        | some tl =>
          have hrest : ∀ s ∈ rest, stmtOk s = true := ih.mp (by simp [hf])
          simp only [find_assigment_in_ast, ht, hf, stmtOk]
          constructor
          · intro _ s2 hs2
            rcases List.mem_cons.mp hs2 with rfl | hs2
            · simp [stmtOk, ht]
            · exact hrest s2 hs2
          · intro _
            simp

/-- C10: the assignment locator is partial: it returns a list exactly when
every top-level statement that has assignment targets has a plain
identifier as its first target; on a body containing a tuple or attribute
first target it fails (raises) rather than filtering that statement out,
and since the success condition does not involve the searched name, it
fails for every searched name. -/
theorem find_assigment_partiality (name name2 : Str) (body : List PyStmt) :
    ((find_assigment_in_ast name body).isSome = true ↔
      ∀ s ∈ body, stmtOk s = true) ∧
    (find_assigment_in_ast name body = none →
      find_assigment_in_ast name2 body = none) := by
  refine ⟨find_ok_iff name body, fun h => ?_⟩
  cases hf : find_assigment_in_ast name2 body with
  | none => rfl
  | some tl =>
    have h2 := (find_ok_iff name body).mpr ((find_ok_iff name2 body).mp (by simp [hf]))
    rw [h] at h2
    simp at h2

/-! ## Metadata normalizer (`update_metdata`) -/

/-- The literal replacement value written by the metadata normalizer. -/
def metaVal : AVal :=
  .dictv [("metadata_version".data, "1.1".data), ("supported_by".data, "Ansible".data)]

/-- The warning logged when an assignment lookup does not have exactly one
match. -/
def warnMeta : Str := "Failed to find ANSIBLE_METADATA assignment".data

/-- `update_metdata`: with exactly one matching assignment, overwrite its
value wholesale with the fixed metadata dict; otherwise log a warning and
leave the matches unchanged.  (The locator only ever returns assignment
statements, so the non-assignment singleton case is unreachable in the
pipeline and modelled as unchanged.) -/
def update_metdata (bodypart : List PyStmt) : List PyStmt × List Str :=
  match bodypart with
  | [.assignS t ts _] => ([.assignS t ts metaVal], [])
  | [.exprS] => ([.exprS], [])
  | other => (other, [warnMeta])

/-- C9: for every prior value of the ANSIBLE_METADATA assignment, when
exactly one matching assignment exists, after the metadata normalizer runs
the assignment's value is exactly the two-entry mapping
`{"metadata_version": "1.1", "supported_by": "Ansible"}`. -/
theorem update_metdata_normalizes (t : PyTarget) (ts : List PyTarget) (v : AVal) :
    update_metdata [.assignS t ts v] = ([.assignS t ts metaVal], []) := rfl

/-! ## Documentation field editor (`update_documentation`) -/

/-- The `version_added` key. -/
def vaKey : Str := "version_added".data

/-- The `description` key. -/
def descKey : Str := "description".data

/-- The fixed inserted value `1.0.0`. -/
def ver100 : Str := "1.0.0".data

/-- The warning logged when the DOCUMENTATION lookup does not have exactly
one match. -/
def warnDoc : Str := "Failed to find DOCUMENTATION assignment".data

/-- The regex whitespace class (newlines cannot occur inside a split
line, but the class is modelled in full). -/
def isWsChar (c : Char) : Bool :=
  c = ' ' || c = '\t' || c = '\n' || c = '\r' || c = '\x0b' || c = '\x0c'

/-- The line filter regex of the editor: one or more whitespace
characters, then the literal `version_added:`, then one whitespace
character, then anything. -/
def vaLineMatch (l : Str) : Bool :=
  let ws := l.takeWhile isWsChar
  let rest := l.dropWhile isWsChar
  !ws.isEmpty && prefixB "version_added:".data rest &&
    (match rest.drop ("version_added:".data).length with
     | c :: _ => isWsChar c
     | [] => false)

/-- Python `dict.pop(key, None)`: the codec rejects duplicate keys, so at
most one entry matches and order-preserving filtering is exactly the
dict removal. -/
def popKey (k : Str) (d : YDoc) : YDoc := d.filter (fun e => e.1 ≠ k)

/-- Python `list.insert(pos, x)` as used by the ordered map. -/
def insertAt {α : Type} (n : Nat) (x : α) (l : List α) : List α :=
  l.take n ++ x :: l.drop n

/-- The first index satisfying a predicate, as computed by
`[idx for idx, key in enumerate(keys) if key == "description"][0]`;
`none` models the IndexError on an empty index list. -/
def firstIdxOf {α : Type} (p : α → Bool) : List α → Option Nat
  | [] => none
  | a :: rest => if p a then some 0 else (firstIdxOf p rest).map (fun i => i + 1)

/-- The structural edit of the documentation document: remove any
top-level `version_added`, then insert `version_added: 1.0.0` immediately
after the `description` key. -/
def editDoc (d : YDoc) : Option YDoc :=
  match firstIdxOf (fun e => e.1 = descKey) (popKey vaKey d) with
  | none => none
  | some i => some (insertAt (i + 1) (vaKey, YVal.scalar ver100) (popKey vaKey d))

/-- `update_documentation`: decode the single matching assignment's value,
apply the structural edit, re-encode, and drop every line matching the
nested `version_added` pattern; warn and no-op when there is not exactly
one match.  (A non-string value and a non-assignment statement raise;
the latter is unreachable through the locator.) -/
def update_documentation (bodypart : List PyStmt) : Option (List PyStmt × List Str) :=
  match bodypart with
  | [.assignS t ts (.strv v)] =>
    match decodeMap v with
    | none => none
    | some d =>
      match editDoc d with
      | none => none
      | some d2 =>
        some ([.assignS t ts (.strv (joinNL
          ((encodeMapLines d2).filter (fun l => !vaLineMatch l))))], [])
  | [.assignS _ _ (.dictv _)] => none
  | [.exprS] => none
  | other => some (other, [warnDoc])

/-! ### List lemmas for the editor -/

/-- Decomposition of a successful first-index search. -/
theorem firstIdxOf_decomp {α : Type} (p : α → Bool) :
    ∀ (l : List α) (i : Nat), firstIdxOf p l = some i →
      ∃ pre x post, l = pre ++ x :: post ∧ pre.length = i ∧ p x = true ∧
        ∀ y ∈ pre, p y = false := by
  intro l
  induction l with
  | nil =>
    intro i h
    simp [firstIdxOf] at h
  | cons a as ih =>
    intro i h
    by_cases hp : p a = true
    · have h0 : i = 0 := by
        simp [firstIdxOf, hp] at h
        omega
      refine ⟨[], a, as, by simp, by simp [h0], hp, by simp⟩
    · have hp2 : p a = false := by
        revert hp
        cases p a <;> simp
      simp only [firstIdxOf, hp2, Bool.false_eq_true, if_false] at h
      cases hf : firstIdxOf p as with
      | none => rw [hf] at h; simp at h
      | some j =>
        rw [hf] at h
        simp at h
        rcases ih j hf with ⟨pre, x, post, hl, hlen, hx, hpre⟩
        refine ⟨a :: pre, x, post, by simp [hl], by simp [hlen]; omega, hx, ?_⟩
        intro y hy
        rcases List.mem_cons.mp hy with rfl | hy
        · exact hp2
        · exact hpre y hy

/-- A successful search exists when some element satisfies the predicate. -/
theorem firstIdxOf_isSome {α : Type} (p : α → Bool) :
    ∀ (l : List α), (∃ x ∈ l, p x = true) → ∃ i, firstIdxOf p l = some i := by
  intro l
  induction l with
  | nil => rintro ⟨x, hx, _⟩; simp at hx
  | cons a as ih =>
    rintro ⟨x, hx, hp⟩
    by_cases hpa : p a = true
    · exact ⟨0, by simp [firstIdxOf, hpa]⟩
    · rcases List.mem_cons.mp hx with rfl | hx
      · exact absurd hp hpa
      · rcases ih ⟨x, hx, hp⟩ with ⟨j, hj⟩
        have hpa2 : p a = false := by
          revert hpa
          cases p a <;> simp
        exact ⟨j + 1, by simp [firstIdxOf, hpa2, hj]⟩

/-- Taking one past a prefix of known length. -/
theorem take_len_cons {α : Type} (pre : List α) (x : α) (post : List α) :
    (pre ++ x :: post).take (pre.length + 1) = pre ++ [x] := by
  induction pre with
  | nil => simp
  | cons a as ih => simp [ih]

/-- Dropping one past a prefix of known length. -/
theorem drop_len_cons {α : Type} (pre : List α) (x : α) (post : List α) :
    (pre ++ x :: post).drop (pre.length + 1) = post := by
  induction pre with
  | nil => simp
  | cons a as ih => simp [ih]

/-- The keys of a popped document are the filtered keys. -/
theorem keysOf_popKey (k : Str) (d : YDoc) :
    keysOf (popKey k d) = (keysOf d).filter (fun k2 => k2 ≠ k) := by
  induction d with
  | nil => rfl
  | cons e rest ih =>
    simp only [popKey, keysOf, List.filter_cons, List.map_cons] at ih ⊢
    simp only [decide_not] at ih
    by_cases he : e.1 = k
    · simp [he, ih]
    · simp [he, ih]

/-- Removal really removes: the popped key is absent afterwards. -/
theorem popKey_not_mem (k : Str) (d : YDoc) : k ∉ keysOf (popKey k d) := by
  rw [keysOf_popKey]
  intro h
  rcases List.mem_filter.mp h with ⟨_, hk⟩
  simp at hk

/-- Removal preserves the other keys. -/
theorem popKey_mem_of_mem (k k2 : Str) (d : YDoc) (hne : k2 ≠ k)
    (h : k2 ∈ keysOf d) : k2 ∈ keysOf (popKey k d) := by
  rw [keysOf_popKey]
  exact List.mem_filter.mpr ⟨h, by simp [hne]⟩

/-- C4: with exactly one matching DOCUMENTATION assignment whose document
contains a `description` key, the editor removes any top-level
`version_added`, inserts `version_added: 1.0.0` immediately after the
`description` entry, re-encodes, and drops exactly the lines matching the
nested `version_added` pattern from the re-encoded text. -/
theorem update_documentation_spec (t : PyTarget) (ts : List PyTarget)
    (v : Str) (d : YDoc)
    (hv : decodeMap v = some d)
    (hdesc : descKey ∈ keysOf d) :
    ∃ d2, editDoc d = some d2 ∧
      update_documentation [.assignS t ts (.strv v)] =
        some ([.assignS t ts (.strv (joinNL
          ((encodeMapLines d2).filter (fun l => !vaLineMatch l))))], []) ∧
      List.count vaKey (keysOf d2) = 1 ∧
      (∃ pre dv post,
        d2 = pre ++ (descKey, dv) :: (vaKey, YVal.scalar ver100) :: post ∧
        descKey ∉ keysOf pre) ∧
      ∀ l ∈ (encodeMapLines d2).filter (fun l => !vaLineMatch l),
        vaLineMatch l = false := by
  have hdesc1 : descKey ∈ keysOf (popKey vaKey d) :=
    popKey_mem_of_mem vaKey descKey d (by decide) hdesc
  have hva1 : vaKey ∉ keysOf (popKey vaKey d) := popKey_not_mem vaKey d
  rcases List.mem_map.mp hdesc1 with ⟨e0, he0, he0k⟩
  rcases firstIdxOf_isSome (fun e => e.1 = descKey) (popKey vaKey d)
      ⟨e0, he0, by simp [he0k]⟩ with ⟨i, hi⟩
  rcases firstIdxOf_decomp (fun e => e.1 = descKey) (popKey vaKey d) i hi with
    ⟨pre, ⟨x1, x2⟩, post, hl, hlen, hx, hpre⟩
  have hxk : x1 = descKey := by simpa using hx
  subst hxk
  have hd2 : editDoc d =
      some (pre ++ (descKey, x2) :: (vaKey, YVal.scalar ver100) :: post) := by
    simp only [editDoc, hi, insertAt]
    rw [hl, ← hlen, take_len_cons, drop_len_cons]
    simp
  refine ⟨pre ++ (descKey, x2) :: (vaKey, YVal.scalar ver100) :: post,
    hd2, ?_, ?_, ?_, ?_⟩
  · simp only [update_documentation, hv, hd2]
  · have hsplit : vaKey ∉ keysOf pre ∧ descKey ≠ vaKey ∧ vaKey ∉ keysOf post := by
      rw [hl] at hva1
      simp only [keysOf, List.map_append, List.map_cons, List.mem_append,
        List.mem_cons] at hva1
      push_neg at hva1
      exact ⟨hva1.1, fun h => hva1.2.1 h.symm, hva1.2.2⟩
    simp only [keysOf, List.map_append, List.map_cons, List.count_append,
      List.count_cons]
    have h1 : List.count vaKey (pre.map Prod.fst) = 0 :=
      List.count_eq_zero.mpr hsplit.1
    have h2 : List.count vaKey (post.map Prod.fst) = 0 :=
      List.count_eq_zero.mpr hsplit.2.2
    rw [h1, h2]
    have hx1 : ¬ (descKey == vaKey) = true := by
      simp only [beq_iff_eq]
      exact hsplit.2.1
    simp [hx1]
  · refine ⟨pre, x2, post, rfl, ?_⟩
    intro hmem
    rcases List.mem_map.mp hmem with ⟨y, hy, hyk⟩
    have := hpre y hy
    simp [hyk] at this
  · intro l hl2
    rcases List.mem_filter.mp hl2 with ⟨_, hcond⟩
    simpa using hcond

/-- A concrete DOCUMENTATION text with a nested `version_added` line. -/
def vC4 : Str :=
  "module: ios_interfaces\ndescription: d1\nfoo:\n  version_added: x\nbar: b".data

/-- The document decoded from `vC4`. -/
def docC4 : YDoc :=
  [("module".data, .scalar "ios_interfaces".data),
   ("description".data, .scalar "d1".data),
   ("foo".data, .submap (.cons "version_added".data (.scalar "x".data) .nil)),
   ("bar".data, .scalar "b".data)]

/-- C4, witness for the editor theorem at a concrete document. -/
theorem update_documentation_spec_witness :
    ∃ d2, editDoc docC4 = some d2 ∧
      update_documentation
          [.assignS (.nameT "DOCUMENTATION".data) [] (.strv vC4)] =
        some ([.assignS (.nameT "DOCUMENTATION".data) [] (.strv (joinNL
          ((encodeMapLines d2).filter (fun l => !vaLineMatch l))))], []) ∧
      List.count vaKey (keysOf d2) = 1 ∧
      (∃ pre dv post,
        d2 = pre ++ (descKey, dv) :: (vaKey, YVal.scalar ver100) :: post ∧
        descKey ∉ keysOf pre) ∧
      ∀ l ∈ (encodeMapLines d2).filter (fun l => !vaLineMatch l),
        vaLineMatch l = false :=
  update_documentation_spec (.nameT "DOCUMENTATION".data) [] vC4 docC4
    (by decide) (by decide)

/-! ## Short-description transformer on located assignments -/

/-- The warning logged when the RETURN lookup does not have exactly one
match. -/
def warnRet : Str := "Failed to find RETURN assignment".data

/-- `update_short_description` on the located RETURN and DOCUMENTATION
assignments: decode both documents, derive the new short description, and
write it back into the documentation value only when it differs from the
original; with not exactly one RETURN (resp. DOCUMENTATION) match, warn
and leave everything unchanged.  The result is the new RETURN matches, the
new DOCUMENTATION matches, and the log. -/
def update_short_description (retrn documentation : List PyStmt)
    (module_name : Str) : Option (List PyStmt × List PyStmt × List Str) :=
  match retrn with
  | [.assignS rt rts (.strv rv)] =>
    match decodeMap rv with
    | none => none
    | some ret_section =>
      match documentation with
      | [.assignS dt dts (.strv dv)] =>
        match decodeMap dv with
        | none => none
        | some doc_section =>
          match deriveShort ret_section doc_section module_name with
          | none => none
          | some s =>
            match lookupScalar "short_description".data doc_section with
            | none => none
            | some s0 =>
              if s ≠ s0 then
                some ([.assignS rt rts (.strv rv)],
                  [.assignS dt dts (.strv (joinNL (encodeMapLines
                    (setKey "short_description".data s doc_section))))], [])
              else
                some ([.assignS rt rts (.strv rv)],
                  [.assignS dt dts (.strv dv)], [])
      | [.assignS _ _ (.dictv _)] => none
      | [.exprS] => none
      | docOther => some ([.assignS rt rts (.strv rv)], docOther, [warnDoc])
  | [.assignS _ _ (.dictv _)] => none
  | [.exprS] => none
  | retOther => some (retOther, documentation, [warnRet])

/-- C8: whenever the short-description transformer returns, the RETURN
matches are returned unchanged, and when the derived short description
equals the original one the DOCUMENTATION matches are also returned
unchanged (the value is only rewritten when the derivation differs). -/
theorem update_short_description_frame (retrn documentation : List PyStmt)
    (module_name : Str) (r d : List PyStmt) (lg : List Str)
    (h : update_short_description retrn documentation module_name = some (r, d, lg)) :
    r = retrn ∧
    (∀ rt rts rv dt dts dv ret_section doc_section s0,
      retrn = [PyStmt.assignS rt rts (.strv rv)] →
      documentation = [PyStmt.assignS dt dts (.strv dv)] →
      decodeMap rv = some ret_section →
      decodeMap dv = some doc_section →
      lookupScalar "short_description".data doc_section = some s0 →
      deriveShort ret_section doc_section module_name = some s0 →
      d = documentation) := by
  constructor
  · unfold update_short_description at h
    repeat' split at h
    all_goals simp_all
  · intro rt rts rv dt dts dv ret_section doc_section s0 hr hd hdecr hdecd hlook hder
    subst hr
    subst hd
    simp only [update_short_description, hdecr, hdecd, hder, hlook] at h
    rw [if_neg (by simp)] at h
    simp only [Option.some.injEq, Prod.mk.injEq] at h
    rw [← h.2.1]

/-- A concrete RETURN text with the three resource keys. -/
def rvC8 : Str := "after: a\nbefore: b\ncommands: c".data

/-- A concrete DOCUMENTATION text whose short description is already the
derived one. -/
def dvC8 : Str := "short_description: Interfaces resource module".data

/-- A located RETURN assignment holding `rvC8`. -/
def retC8 : List PyStmt := [.assignS (.nameT "RETURN".data) [] (.strv rvC8)]

/-- A located DOCUMENTATION assignment holding `dvC8`. -/
def docStC8 : List PyStmt := [.assignS (.nameT "DOCUMENTATION".data) [] (.strv dvC8)]

/-- C8, witness: at a concrete input whose derived short description equals
the original, both assignment lists come back unchanged. -/
theorem update_short_description_frame_witness :
    retC8 = retC8 ∧
    (∀ rt rts rv dt dts dv ret_section doc_section s0,
      retC8 = [PyStmt.assignS rt rts (.strv rv)] →
      docStC8 = [PyStmt.assignS dt dts (.strv dv)] →
      decodeMap rv = some ret_section →
      decodeMap dv = some doc_section →
      lookupScalar "short_description".data doc_section = some s0 →
      deriveShort ret_section doc_section "ios_interfaces".data = some s0 →
      docStC8 = docStC8) :=
  update_short_description_frame retC8 docStC8 "ios_interfaces".data
    retC8 docStC8 [] (by decide)

/-! ## Example reference rewriter (`update_examples`)

The EXAMPLES value decodes to a sequence of flat task mappings; the
round-trip codec keeps the comment lines standing before each task.  The
model codec below encodes a task as its comment lines, a `- key: value`
line for the first entry and two-space-indented `key: value` lines for
the rest, and decodes exactly that shape back. -/

/-- A task of the EXAMPLES sequence: the comment lines the round-trip
codec keeps attached before the task, and the task's flat entries. -/
structure ExTask where
  comments : List Str
  entries : List (Str × Str)
  deriving DecidableEq

/-- A decoded EXAMPLES document. -/
abbrev ExDoc := List ExTask

/-- The warning logged when the EXAMPLES lookup does not have exactly one
match. -/
def warnEx : Str := "Failed to find EXAMPLES assignment".data

/-- The fully-qualified module name `{collection}.{module_name}`. -/
def fullNameOf (collection module_name : Str) : Str :=
  collection ++ '.' :: module_name

/-- `line.startswith("#")`. -/
def isCommentLine : Str → Bool
  | [] => false
  | c :: _ => c = '#' 

/-- The `key: value` separator. -/
def kvSep : Str := [':', ' ']

/-- Split an entry-line body at the first `: ` separator: the key is
everything before the first occurrence, the value everything after it. -/
def splitKV : Str → Option (Str × Str)
  | [] => none
  | c :: rest =>
    if prefixB kvSep (c :: rest) then some ([], rest.tail)
    else (splitKV rest).map (fun p => (c :: p.1, p.2))

/-- Lines encoding one task's entries. -/
def encEntriesLines : List (Str × Str) → List Str
  | [] => []
  | (k, v) :: rest =>
    ('-' :: ' ' :: (k ++ ':' :: ' ' :: v)) ::
      rest.map (fun e => ' ' :: ' ' :: (e.1 ++ ':' :: ' ' :: e.2))

/-- Lines encoding one task: its comments, then its entries. -/
def encTaskLines (t : ExTask) : List Str := t.comments ++ encEntriesLines t.entries

/-- Lines encoding the whole EXAMPLES document. -/
def encodeTasks (d : ExDoc) : List Str := (d.map encTaskLines).flatten

/-- Parse a two-space-indented continuation entry line. -/
def parseIndentLine : Str → Option (Str × Str)
  | ' ' :: ' ' :: body => splitKV body
  | _ => none

/-- Recognize a continuation entry line. -/
def isIndentLine (l : Str) : Bool := (parseIndentLine l).isSome

/-- Parse a `- key: value` line starting a task. -/
def parseDashLine : Str → Option (Str × Str)
  | '-' :: ' ' :: body => splitKV body
  | _ => none

/-- Parse the lines of the EXAMPLES text into tasks (fuelled recursion;
the fuel is sized from the line count before the call).  Duplicate keys of
a task are rejected as the library does. -/
def parseTasks : Nat → List Str → Option ExDoc
  | 0, _ => none
  | _ + 1, [] => some []
  | fuel + 1, l0 :: rest0 =>
    match (l0 :: rest0).dropWhile isCommentLine with
    | [] => none
    | l :: rest =>
      match parseDashLine l with
      | none => none
      | some e1 =>
        match (rest.takeWhile isIndentLine).mapM parseIndentLine with
        | none => none
        | some es =>
          if ((e1 :: es).map Prod.fst).Nodup then
            match parseTasks fuel (rest.dropWhile isIndentLine) with
            | none => none
            | some ts => some (⟨(l0 :: rest0).takeWhile isCommentLine, e1 :: es⟩ :: ts)
          else none

/-- Decode the EXAMPLES text. -/
def decodeTasks (s : Str) : Option ExDoc :=
  parseTasks ((splitNL s).length + 1) (splitNL s)

/-- One dict insertion `d[k] = v`: if the key is present its value is
overwritten in place (first-occurrence position), otherwise the pair is
appended. -/
def dictInsert (acc : List (Str × Str)) (k : Str) (v : Str) : List (Str × Str) :=
  if k ∈ acc.map Prod.fst then
    acc.map (fun e => if e.1 = k then (k, v) else e)
  else acc ++ [(k, v)]

/-- `ruamel.yaml.comments.CommentedMap(pairs)`: the pairs are inserted in
order into an initially empty dict, so a duplicated key is collapsed to one
entry at its first position holding its last value. -/
def commentedMapOf (es : List (Str × Str)) : List (Str × Str) :=
  es.foldl (fun a e => dictInsert a e.1 e.2) []

/-- Rename every key equal to the module name to the full name and rebuild
the task map as a `CommentedMap` of the renamed pairs (collapsing any key
duplicated by the rename). -/
def renameTask (module_name full : Str) (t : ExTask) : ExTask :=
  ⟨t.comments,
    commentedMapOf
      (t.entries.map (fun e => if e.1 = module_name then (full, e.2) else e))⟩

/-- The rename pass over the whole decoded sequence. -/
def renameTasks (module_name full : Str) (d : ExDoc) : ExDoc :=
  d.map (renameTask module_name full)

/-- The comment pass on one line of the dumped text: a comment line that
contains the bare module name (which is non-empty) and does not already
contain the full name has every occurrence of the bare name replaced. -/
def commentFixLine (module_name full : Str) (l : Str) : Str :=
  if isCommentLine l && containsSub module_name l && !module_name.isEmpty &&
      !containsSub full l then
    replaceSub module_name full l
  else l

/-- The comment pass over all lines. -/
def commentFixLines (module_name full : Str) (ls : List Str) : List Str :=
  ls.map (commentFixLine module_name full)

/-- The whole rewriter on the EXAMPLES text: decode, rename the task keys,
re-encode, then rewrite the comment lines. -/
def update_examples_text (module_name collection : Str) (s : Str) : Option Str :=
  match decodeTasks s with
  | none => none
  | some ex =>
    some (joinNL (commentFixLines module_name (fullNameOf collection module_name)
      (encodeTasks (renameTasks module_name (fullNameOf collection module_name) ex))))

/-- `update_examples` on the located EXAMPLES assignment. -/
def update_examples (bodypart : List PyStmt) (module_name collection : Str) :
    Option (List PyStmt × List Str) :=
  match bodypart with
  | [.assignS t ts (.strv v)] =>
    match update_examples_text module_name collection v with
    | none => none
    | some out => some ([.assignS t ts (.strv out)], [])
  | [.assignS _ _ (.dictv _)] => none
  | [.exprS] => none
  | other => some (other, [warnEx])

/-! ### Substring and replacement lemmas -/

/-- A prefix occurrence is an occurrence. -/
theorem containsSub_of_prefixB (pat s : Str) (h : prefixB pat s = true) :
    containsSub pat s = true := by
  cases s with
  | nil =>
    unfold containsSub
    exact h
  | cons c rest =>
    unfold containsSub
    rw [h]
    rfl

/-- The head survives replacement when no occurrence starts at it. -/
theorem replaceSub_cons_no (pat repl : Str) (c : Char) (rest : Str)
    (h : prefixB pat (c :: rest) = false) :
    replaceSub pat repl (c :: rest) = c :: replaceSub pat repl rest := by
  rw [replaceSub, h]
  simp

/-- No occurrence means replacement is the identity. -/
theorem replaceSub_of_not_contains (pat repl : Str) :
    ∀ (n : Nat) (s : Str), s.length ≤ n → containsSub pat s = false →
      replaceSub pat repl s = s := by
  intro n
  induction n with
  | zero =>
    intro s hs _
    have : s = [] := List.length_eq_zero.mp (Nat.le_zero.mp hs)
    subst this
    simp [replaceSub]
  | succ n ih =>
    intro s hs hc
    cases s with
    | nil => simp [replaceSub]
    | cons c rest =>
      unfold containsSub at hc
      rcases Bool.or_eq_false_iff.mp hc with ⟨hpre, hrest⟩
      rw [replaceSub_cons_no pat repl c rest hpre]
      have : rest.length ≤ n := by
        simp only [List.length_cons] at hs
        omega
      rw [ih rest this hrest]

/-- Replacing a present pattern leaves the replacement as a substring. -/
theorem containsSub_replaceSub (pat repl : Str) (hne : pat ≠ []) :
    ∀ (n : Nat) (s : Str), s.length ≤ n → containsSub pat s = true →
      containsSub repl (replaceSub pat repl s) = true := by
  intro n
  induction n with
  | zero =>
    intro s hs hc
    have : s = [] := List.length_eq_zero.mp (Nat.le_zero.mp hs)
    subst this
    unfold containsSub at hc
    cases pat with
    | nil => exact absurd rfl hne
    | cons p ps => simp [prefixB] at hc
  | succ n ih =>
    intro s hs hc
    cases s with
    | nil =>
      unfold containsSub at hc
      cases pat with
      | nil => exact absurd rfl hne
      | cons p ps => simp [prefixB] at hc
    | cons c rest =>
      by_cases hpre : prefixB pat (c :: rest) = true
      · have hrepl : replaceSub pat repl (c :: rest) =
            repl ++ replaceSub pat repl (List.drop (pat.length - 1) rest) := by
          rw [replaceSub, hpre]
          simp [hne]
        rw [hrepl]
        exact containsSub_of_prefixB repl _ (prefixB_self_append repl _)
      · have hpf : prefixB pat (c :: rest) = false := by
          revert hpre
          cases prefixB pat (c :: rest) <;> simp
        have hrest : containsSub pat rest = true := by
          unfold containsSub at hc
          rw [hpf] at hc
          simpa using hc
        rw [replaceSub_cons_no pat repl c rest hpf]
        have hlen : rest.length ≤ n := by
          simp only [List.length_cons] at hs
          omega
        have := ih rest hlen hrest
        unfold containsSub
        rw [this]
        simp

/-- Characters of a replacement come from the source or the replacement
string. -/
theorem mem_replaceSub (pat repl : Str) (x : Char) :
    ∀ (n : Nat) (s : Str), s.length ≤ n → x ∈ replaceSub pat repl s →
      x ∈ s ∨ x ∈ repl := by
  intro n
  induction n with
  | zero =>
    intro s hs hx
    have : s = [] := List.length_eq_zero.mp (Nat.le_zero.mp hs)
    subst this
    simp [replaceSub] at hx
  | succ n ih =>
    intro s hs hx
    cases s with
    | nil => simp [replaceSub] at hx
    | cons c rest =>
      by_cases hpre : (prefixB pat (c :: rest) && !pat.isEmpty) = true
      · rw [replaceSub, if_pos hpre] at hx
        rcases List.mem_append.mp hx with hx | hx
        · exact Or.inr hx
        · have hlen : (List.drop (pat.length - 1) rest).length ≤ n := by
            simp only [List.length_cons] at hs
            have := List.length_drop (pat.length - 1) rest
            omega
          rcases ih _ hlen hx with hx | hx
          · exact Or.inl (List.mem_cons_of_mem _ (List.mem_of_mem_drop hx))
          · exact Or.inr hx
      · have hpf : (prefixB pat (c :: rest) && !pat.isEmpty) = false := by
          revert hpre
          cases (prefixB pat (c :: rest) && !pat.isEmpty) <;> simp
        rw [replaceSub, hpf] at hx
        simp only [Bool.false_eq_true, if_false] at hx
        rcases List.mem_cons.mp hx with rfl | hx
        · exact Or.inl (List.mem_cons_self _ _)
        · have hlen : rest.length ≤ n := by
            simp only [List.length_cons] at hs
            omega
          rcases ih rest hlen hx with hx | hx
          · exact Or.inl (List.mem_cons_of_mem _ hx)
          · exact Or.inr hx

/-! ### Line splitting and joining lemmas -/

/-- A run of satisfying elements is wholly taken. -/
theorem takeWhile_all {p : Str -> Bool} :
    forall (l : List Str), (forall x, x ∈ l -> p x = true) ->
      l.takeWhile p = l ∧ l.dropWhile p = [] := by
  intro l
  induction l with
  | nil => intro _; exact ⟨rfl, rfl⟩
  | cons a as ih =>
    intro h
    have ha : p a = true := h a (List.mem_cons_self _ _)
    have := ih (fun x hx => h x (List.mem_cons_of_mem _ hx))
    simp [List.takeWhile_cons, List.dropWhile_cons, ha, this.1, this.2]

/-- Taking while stops exactly at the first failing element. -/
theorem takeWhile_append_stop {p : Str -> Bool} :
    forall (xs : List Str) (y : Str) (ys : List Str),
      (forall x, x ∈ xs -> p x = true) -> p y = false ->
      (xs ++ y :: ys).takeWhile p = xs ∧ (xs ++ y :: ys).dropWhile p = y :: ys := by
  intro xs
  induction xs with
  | nil =>
    intro y ys _ hy
    simp [List.takeWhile_cons, List.dropWhile_cons, hy]
  | cons a as ih =>
    intro y ys hall hy
    have ha : p a = true := hall a (List.mem_cons_self _ _)
    have := ih y ys (fun x hx => hall x (List.mem_cons_of_mem _ hx)) hy
    simp [List.takeWhile_cons, List.dropWhile_cons, ha, this.1, this.2]

/-- Splitting a separator-free string gives one piece. -/
theorem splitOnChar_not_mem (sep : Char) :
    forall (l : Str), sep ∉ l -> splitOnChar sep l = [l] := by
  intro l
  induction l with
  | nil => intro _; rfl
  | cons c rest ih =>
    intro h
    have hc : c ≠ sep := fun hc => h (hc ▸ List.mem_cons_self _ _)
    have hrest : sep ∉ rest := fun hr => h (List.mem_cons_of_mem _ hr)
    simp [splitOnChar, ih hrest, hc]

/-- The split never returns the empty list. -/
theorem splitOnChar_ne_nil (sep : Char) (s : Str) : splitOnChar sep s ≠ [] := by
  cases s with
  | nil => simp [splitOnChar]
  | cons c rest =>
    simp only [splitOnChar]
    cases h : splitOnChar sep rest with
    | nil => simp
    | cons a as =>
      by_cases hc : c = sep <;> simp [hc]

/-- Splitting past the first separator peels off the first piece. -/
theorem splitOnChar_append (sep : Char) :
    forall (l t : Str), sep ∉ l ->
      splitOnChar sep (l ++ sep :: t) = l :: splitOnChar sep t := by
  intro l
  induction l with
  | nil =>
    intro t _
    simp only [List.nil_append, splitOnChar]
    cases h : splitOnChar sep t with
    | nil => exact absurd h (splitOnChar_ne_nil sep t)
    | cons a as => simp
  | cons c rest ih =>
    intro t h
    have hc : c ≠ sep := fun hc => h (hc ▸ List.mem_cons_self _ _)
    have hrest : sep ∉ rest := fun hr => h (List.mem_cons_of_mem _ hr)
    simp only [List.cons_append, splitOnChar, List.append_eq]
    rw [ih t hrest]
    simp [hc]

/-- Pieces of a split contain no separator. -/
theorem splitOnChar_no_sep (sep : Char) :
    forall (s : Str) (x : Str), x ∈ splitOnChar sep s -> sep ∉ x := by
  intro s
  induction s with
  | nil =>
    intro x hx
    simp [splitOnChar] at hx
    simp [hx]
  | cons c rest ih =>
    intro x hx
    unfold splitOnChar at hx
    cases h : splitOnChar sep rest with
    | nil =>
      rw [h] at hx
      simp at hx
      simp [hx]
    | cons a as =>
      rw [h] at hx
      have hx2 : x ∈ (if c = sep then [] :: a :: as else (c :: a) :: as) := hx
      by_cases hc : c = sep
      · rw [if_pos hc] at hx2
        rcases List.mem_cons.mp hx2 with rfl | hx3
        · simp
        · exact ih x (h ▸ hx3)
      · rw [if_neg hc] at hx2
        rcases List.mem_cons.mp hx2 with rfl | hx3
        · intro hmem
          rcases List.mem_cons.mp hmem with heq | hmem
          · exact hc heq.symm
          · exact ih a (h ▸ List.mem_cons_self _ _) hmem
        · exact ih x (h ▸ List.mem_cons_of_mem _ hx3)

/-- Joining then splitting newline-free lines is the identity. -/
theorem splitNL_joinNL :
    forall (ls : List Str), ls ≠ [] -> (forall l, l ∈ ls -> ('\n' : Char) ∉ l) ->
      splitNL (joinNL ls) = ls := by
  intro ls
  induction ls with
  | nil => intro h _; exact absurd rfl h
  | cons l rest ih =>
    intro _ hnl
    cases rest with
    | nil =>
      show splitNL (joinNL [l]) = [l]
      unfold joinNL splitNL
      exact splitOnChar_not_mem _ l (hnl l (List.mem_cons_self _ _))
    | cons l2 rest2 =>
      show splitNL (l ++ '\n' :: joinNL (l2 :: rest2)) = l :: l2 :: rest2
      unfold splitNL
      rw [splitOnChar_append _ l _ (hnl l (List.mem_cons_self _ _))]
      have := ih (by simp) (fun x hx => hnl x (List.mem_cons_of_mem _ hx))
      unfold splitNL at this
      rw [this]

/-! ### Entry-line split lemmas -/

/-- Splitting the canonical encoding of a separator-free key recovers the
pair. -/
theorem splitKV_encode (k v : Str) (hk : containsSub kvSep k = false) :
    splitKV (k ++ ':' :: ' ' :: v) = some (k, v) := by
  induction k with
  | nil =>
    have hp : prefixB kvSep (':' :: ' ' :: v) = true := by
      simp [kvSep, prefixB]
    show splitKV (':' :: ' ' :: v) = some ([], v)
    unfold splitKV
    rw [hp]
    simp
  | cons c k2 ih =>
    unfold containsSub at hk
    rcases Bool.or_eq_false_iff.mp hk with ⟨hpre, hrest⟩
    have hp : prefixB kvSep (c :: (k2 ++ ':' :: ' ' :: v)) = false := by
      cases k2 with
      | nil => simp [kvSep, prefixB]
      | cons a k3 => simpa [kvSep, prefixB] using hpre
    simp only [List.cons_append]
    unfold splitKV
    rw [hp]
    simp only [Bool.false_eq_true, if_false]
    rw [ih hrest]
    rfl

/-- A successful split decomposes the line and certifies the key free of
the separator. -/
theorem splitKV_decomp :
    ∀ (s k v : Str), splitKV s = some (k, v) →
      s = k ++ ':' :: ' ' :: v ∧ containsSub kvSep k = false := by
  intro s
  induction s with
  | nil =>
    intro k v h
    simp [splitKV] at h
  | cons c rest ih =>
    intro k v h
    unfold splitKV at h
    by_cases hp : prefixB kvSep (c :: rest) = true
    · rw [if_pos hp] at h
      have hc : ':' = c ∧ prefixB [' '] rest = true := by
        cases rest with
        | nil => simp [kvSep, prefixB] at hp
        | cons a r2 =>
          simp only [kvSep, prefixB] at hp
          rcases Bool.and_eq_true .. |>.mp hp with ⟨h1, h2⟩
          exact ⟨by simpa using h1, h2⟩
      rcases hc with ⟨heq, hsp⟩
      subst heq
      cases rest with
      | nil => simp [prefixB] at hsp
      | cons a r2 =>
        have ha : ' ' = a := by
          simp only [prefixB] at hsp
          rcases Bool.and_eq_true .. |>.mp hsp with ⟨h1, _⟩
          simpa using h1
        subst ha
        simp only [List.tail_cons, Option.some.injEq, Prod.mk.injEq] at h
        rcases h with ⟨rfl, rfl⟩
        constructor
        · rfl
        · rfl
    · have hp2 : prefixB kvSep (c :: rest) = false := by
        revert hp
        cases prefixB kvSep (c :: rest) <;> simp
      rw [hp2] at h
      simp only [Bool.false_eq_true, if_false] at h
      cases hs : splitKV rest with
      | none => rw [hs] at h; simp at h
      | some p =>
        rw [hs] at h
        rcases p with ⟨k2, v2⟩
        simp only [Option.map_some', Option.some.injEq, Prod.mk.injEq] at h
        rcases h with ⟨hk1, hk2⟩
        subst hk1
        subst hk2
        rcases ih k2 v2 hs with ⟨hdec, hfree⟩
        constructor
        · rw [hdec]
          rfl
        · unfold containsSub
          rw [hfree]
          have : prefixB kvSep (c :: k2) = false := by
            cases k2 with
            | nil => simp [kvSep, prefixB]
            | cons a k3 =>
              by_cases hca : (c = ':' ∧ a = ' ')
              · exfalso
                rcases hca with ⟨rfl, rfl⟩
                rw [hdec] at hp2
                simp [kvSep, prefixB] at hp2
              · simp only [kvSep, prefixB]
                rcases Decidable.not_and_iff_or_not.mp hca with hx | hx
                · have hd : decide (':' = c) = false :=
                    decide_eq_false (fun heq => hx heq.symm)
                  simp [hd]
                · have hd : decide (' ' = a) = false :=
                    decide_eq_false (fun heq => hx heq.symm)
                  simp [hd]
          simp [this]

/-! ### Shapes of encoded lines -/

/-- The dash line of a task's first entry. -/
def dashLineOf (e : Str × Str) : Str := '-' :: ' ' :: (e.1 ++ ':' :: ' ' :: e.2)

/-- The indented line of a continuation entry. -/
def indentLineOf (e : Str × Str) : Str := ' ' :: ' ' :: (e.1 ++ ':' :: ' ' :: e.2)

/-- Entry lines spelled with the named line builders. -/
theorem encEntriesLines_cons (e : Str × Str) (rest : List (Str × Str)) :
    encEntriesLines (e :: rest) = dashLineOf e :: rest.map indentLineOf := by
  rcases e with ⟨k, v⟩
  rfl

/-- A dash line is not a comment line. -/
theorem isCommentLine_dash (e : Str × Str) : isCommentLine (dashLineOf e) = false := by
  rfl

/-- An indented line is not a comment line. -/
theorem isCommentLine_indent (e : Str × Str) :
    isCommentLine (indentLineOf e) = false := by
  rfl

/-- A dash line is not an indented entry line. -/
theorem isIndentLine_dash (e : Str × Str) : isIndentLine (dashLineOf e) = false := by
  rfl

/-- A comment line is not an indented entry line. -/
theorem isIndentLine_of_comment (l : Str) (h : isCommentLine l = true) :
    isIndentLine l = false := by
  cases l with
  | nil => simp [isCommentLine] at h
  | cons c rest =>
    have : c = '#' := by simpa [isCommentLine] using h
    subst this
    rfl

/-- A dash line parses back to its entry when the key is separator-free. -/
theorem parseDashLine_encode (e : Str × Str) (h : containsSub kvSep e.1 = false) :
    parseDashLine (dashLineOf e) = some e := by
  rcases e with ⟨k, v⟩
  show splitKV (k ++ ':' :: ' ' :: v) = some (k, v)
  exact splitKV_encode k v h

/-- An indented line parses back to its entry when the key is
separator-free. -/
theorem parseIndentLine_encode (e : Str × Str) (h : containsSub kvSep e.1 = false) :
    parseIndentLine (indentLineOf e) = some e := by
  rcases e with ⟨k, v⟩
  show splitKV (k ++ ':' :: ' ' :: v) = some (k, v)
  exact splitKV_encode k v h

/-- An indented line is recognized as such. -/
theorem isIndentLine_encode (e : Str × Str) (h : containsSub kvSep e.1 = false) :
    isIndentLine (indentLineOf e) = true := by
  unfold isIndentLine
  rw [parseIndentLine_encode e h]
  rfl

/-- Well-formed task: comment lines start with `#` and hold no newline,
at least one entry, keys free of the separator, keys and values free of
newlines, and keys distinct. -/
def wfTask (t : ExTask) : Prop :=
  (∀ c ∈ t.comments, isCommentLine c = true ∧ ('\n' : Char) ∉ c) ∧
  t.entries ≠ [] ∧
  (∀ e ∈ t.entries, containsSub kvSep e.1 = false ∧
    ('\n' : Char) ∉ e.1 ∧ ('\n' : Char) ∉ e.2) ∧
  (t.entries.map Prod.fst).Nodup

/-- Well-formed decoded document. -/
def wfEx (d : ExDoc) : Prop := ∀ t ∈ d, wfTask t

/-- Mapping the parse over encoded continuation lines recovers the
entries. -/
theorem mapM_parseIndent_encode :
    ∀ (es : List (Str × Str)), (∀ e ∈ es, containsSub kvSep e.1 = false) →
      (es.map indentLineOf).mapM parseIndentLine = some es := by
  intro es
  induction es with
  | nil => intro _; rfl
  | cons e rest ih =>
    intro h
    have he := h e (List.mem_cons_self _ _)
    have hr := ih (fun x hx => h x (List.mem_cons_of_mem _ hx))
    simp only [List.map_cons, List.mapM_cons, parseIndentLine_encode e he, hr]
    rfl

/-- The encoded lines of a well-formed task are non-empty and start with a
line that is not an indented entry line. -/
theorem encTaskLines_head (t : ExTask) (hwf : wfTask t) :
    ∃ y ys, encTaskLines t = y :: ys ∧ isIndentLine y = false := by
  rcases hwf with ⟨hcm, hne, hen, _⟩
  cases hc : t.comments with
  | cons c cs =>
    refine ⟨c, cs ++ encEntriesLines t.entries, ?_, ?_⟩
    · simp [encTaskLines, hc]
    · exact isIndentLine_of_comment c (hcm c (hc ▸ List.mem_cons_self _ _)).1
  | nil =>
    cases he : t.entries with
    | nil => exact absurd he hne
    | cons e es =>
      refine ⟨dashLineOf e, es.map indentLineOf, ?_, isIndentLine_dash e⟩
      simp [encTaskLines, hc, he, encEntriesLines_cons]

/-- Encoded lines of a well-formed document contain no newline. -/
theorem encodeTasks_no_newline :
    ∀ (d : ExDoc), wfEx d → ∀ l ∈ encodeTasks d, ('\n' : Char) ∉ l := by
  intro d
  induction d with
  | nil => intro _ l hl; simp [encodeTasks] at hl
  | cons t ts ih =>
    intro hwf l hl
    have hwt := hwf t (List.mem_cons_self _ _)
    have hwts : wfEx ts := fun x hx => hwf x (List.mem_cons_of_mem _ hx)
    simp only [encodeTasks, List.map_cons, List.flatten_cons] at hl
    rcases List.mem_append.mp hl with hl | hl
    · unfold encTaskLines at hl
      rcases List.mem_append.mp hl with hl | hl
      · exact (hwt.1 l hl).2
      · rcases hwt with ⟨_, _, hen, _⟩
        cases he : t.entries with
        | nil => rw [he] at hl; simp [encEntriesLines] at hl
        | cons e es =>
          rw [he, encEntriesLines_cons] at hl
          rcases List.mem_cons.mp hl with rfl | hl
          · rcases hen e (he ▸ List.mem_cons_self _ _) with ⟨_, hk, hv⟩
            intro hmem
            unfold dashLineOf at hmem
            rcases List.mem_cons.mp hmem with h | hmem
            · exact absurd h (by decide)
            rcases List.mem_cons.mp hmem with h | hmem
            · exact absurd h (by decide)
            rcases List.mem_append.mp hmem with h | hmem
            · exact hk h
            rcases List.mem_cons.mp hmem with h | hmem
            · exact absurd h (by decide)
            rcases List.mem_cons.mp hmem with h | hmem
            · exact absurd h (by decide)
            exact hv hmem
          · rcases List.mem_map.mp hl with ⟨e2, he2, rfl⟩
            rcases hen e2 (he ▸ List.mem_cons_of_mem _ he2) with ⟨_, hk, hv⟩
            intro hmem
            unfold indentLineOf at hmem
            rcases List.mem_cons.mp hmem with h | hmem
            · exact absurd h (by decide)
            rcases List.mem_cons.mp hmem with h | hmem
            · exact absurd h (by decide)
            rcases List.mem_append.mp hmem with h | hmem
            · exact hk h
            rcases List.mem_cons.mp hmem with h | hmem
            · exact absurd h (by decide)
            rcases List.mem_cons.mp hmem with h | hmem
            · exact absurd h (by decide)
            exact hv hmem
    · exact ih hwts l hl

/-- The encoding of a well-formed non-empty document is non-empty. -/
theorem encodeTasks_ne_nil (t : ExTask) (ts : ExDoc) (hwf : wfTask t) :
    encodeTasks (t :: ts) ≠ [] := by
  rcases encTaskLines_head t hwf with ⟨y, ys, hy, _⟩
  simp [encodeTasks, hy]

/-- Splitting an all-indent run followed by a stopper or nothing. -/
theorem takeWhile_indent_split (xs : List Str) (suf : List Str)
    (hall : ∀ x ∈ xs, isIndentLine x = true)
    (hsuf : suf = [] ∨ ∃ y ys, suf = y :: ys ∧ isIndentLine y = false) :
    (xs ++ suf).takeWhile isIndentLine = xs ∧
    (xs ++ suf).dropWhile isIndentLine = suf := by
  rcases hsuf with rfl | ⟨y, ys, rfl, hy⟩
  · rw [List.append_nil]
    exact takeWhile_all xs hall
  · exact takeWhile_append_stop xs y ys hall hy

/-- The encoding of a well-formed document is empty or starts with a
non-indent line. -/
theorem encodeTasks_shape (ts : ExDoc) (h : wfEx ts) :
    encodeTasks ts = [] ∨
    ∃ y ys, encodeTasks ts = y :: ys ∧ isIndentLine y = false := by
  cases ts with
  | nil => left; rfl
  | cons t2 ts2 =>
    right
    rcases encTaskLines_head t2 (h t2 (List.mem_cons_self _ _)) with ⟨y, ys, hy, hyind⟩
    exact ⟨y, ys ++ encodeTasks ts2, by simp [encodeTasks, hy], hyind⟩

/-- One unfolding of the parser on a non-empty line list. -/
theorem parseTasks_succ_ne (fuel : Nat) (lines : List Str) (hne : lines ≠ []) :
    parseTasks (fuel + 1) lines =
      (match lines.dropWhile isCommentLine with
       | [] => none
       | l :: rest =>
         match parseDashLine l with
         | none => none
         | some e1 =>
           match (rest.takeWhile isIndentLine).mapM parseIndentLine with
           | none => none
           | some es =>
             if ((e1 :: es).map Prod.fst).Nodup then
               match parseTasks fuel (rest.dropWhile isIndentLine) with
               | none => none
               | some ts => some (⟨lines.takeWhile isCommentLine, e1 :: es⟩ :: ts)
             else none) := by
  cases lines with
  | nil => exact absurd rfl hne
  | cons l0 rest0 => rfl

/-- Round trip: parsing the encoding of a well-formed document recovers
the document, for any sufficient fuel. -/
theorem parseTasks_encode :
    ∀ (d : ExDoc) (fuel : Nat), wfEx d → (encodeTasks d).length < fuel →
      parseTasks fuel (encodeTasks d) = some d := by
  intro d
  induction d with
  | nil =>
    intro fuel _ hf
    cases fuel with
    | zero => simp [encodeTasks] at hf
    | succ f => rfl
  | cons t ts ih =>
    intro fuel hwf hf
    have hwt := hwf t (List.mem_cons_self _ _)
    have hwts : wfEx ts := fun x hx => hwf x (List.mem_cons_of_mem _ hx)
    rcases hwt with ⟨hcm, hne, hen, hnd⟩
    cases he : t.entries with
    | nil => exact absurd he hne
    | cons e es =>
      have hk1 : containsSub kvSep e.1 = false := (hen e (he ▸ List.mem_cons_self _ _)).1
      have hkes : ∀ x ∈ es, containsSub kvSep x.1 = false :=
        fun x hx => (hen x (he ▸ List.mem_cons_of_mem _ hx)).1
      have hlines : encodeTasks (t :: ts) =
          t.comments ++ dashLineOf e :: (es.map indentLineOf ++ encodeTasks ts) := by
        simp [encodeTasks, encTaskLines, he, encEntriesLines_cons]
      have hcomm : ∀ x ∈ t.comments, isCommentLine x = true := fun x hx => (hcm x hx).1
      have hstop := takeWhile_append_stop t.comments (dashLineOf e)
        (es.map indentLineOf ++ encodeTasks ts) hcomm (isCommentLine_dash e)
      have hind : ∀ x ∈ es.map indentLineOf, isIndentLine x = true := by
        intro x hx
        rcases List.mem_map.mp hx with ⟨e2, he2, rfl⟩
        exact isIndentLine_encode e2 (hkes e2 he2)
      have hsplit2 := takeWhile_indent_split (es.map indentLineOf) (encodeTasks ts)
        hind (encodeTasks_shape ts hwts)
      have hlen : (encodeTasks ts).length < fuel - 1 := by
        rw [hlines] at hf
        simp only [List.length_append, List.length_cons] at hf
        omega
      cases fuel with
      | zero => omega
      | succ f =>
        have hrec : parseTasks f (encodeTasks ts) = some ts := by
          apply ih f hwts
          omega
        have hnd2 : ((e :: es).map Prod.fst).Nodup := by
          rw [he] at hnd
          exact hnd
        have hteq : (⟨t.comments, e :: es⟩ : ExTask) = t := by
          rcases t with ⟨tc, te⟩
          simp only at he
          rw [he]
        rw [hlines, parseTasks_succ_ne f _ (by simp)]
        rw [hstop.2]
        simp only [parseDashLine_encode e hk1, hsplit2.1,
          mapM_parseIndent_encode es hkes, hsplit2.2, hrec, hstop.1,
          if_pos hnd2, hteq]

/-- A successful indent-line parse certifies the line's shape and a
separator-free key. -/
theorem parseIndentLine_decomp (l : Str) (e : Str × Str)
    (h : parseIndentLine l = some e) :
    l = indentLineOf e ∧ containsSub kvSep e.1 = false := by
  unfold parseIndentLine at h
  split at h
  · rcases splitKV_decomp _ e.1 e.2 (by rw [h]) with ⟨hb, hk⟩
    constructor
    · unfold indentLineOf
      rw [← hb]
    · exact hk
  · simp at h

/-- A successful dash-line parse certifies the line's shape and a
separator-free key. -/
theorem parseDashLine_decomp (l : Str) (e : Str × Str)
    (h : parseDashLine l = some e) :
    l = dashLineOf e ∧ containsSub kvSep e.1 = false := by
  unfold parseDashLine at h
  split at h
  · rcases splitKV_decomp _ e.1 e.2 (by rw [h]) with ⟨hb, hk⟩
    constructor
    · unfold dashLineOf
      rw [← hb]
    · exact hk
  · simp at h

/-- Elements produced by a successful traversal come from parses of the
input lines. -/
theorem mapM_parseIndent_decomp :
    ∀ (ls : List Str) (es : List (Str × Str)),
      ls.mapM parseIndentLine = some es →
      ∀ e ∈ es, ∃ l ∈ ls, parseIndentLine l = some e := by
  intro ls
  induction ls with
  | nil =>
    intro es h e he
    simp only [List.mapM_nil, pure, Option.some.injEq] at h
    subst h
    simp at he
  | cons l ls2 ih =>
    intro es h e he
    rw [List.mapM_cons] at h
    cases hl : parseIndentLine l with
    | none => rw [hl] at h; simp at h
    | some a =>
      rw [hl] at h
      cases hls : ls2.mapM parseIndentLine with
      | none => rw [hls] at h; simp at h
      | some as =>
        rw [hls] at h
        simp at h
        subst h
        rcases List.mem_cons.mp he with rfl | he2
        · exact ⟨l, List.mem_cons_self _ _, hl⟩
        · rcases ih as hls e he2 with ⟨l2, hl2, hp⟩
          exact ⟨l2, List.mem_cons_of_mem _ hl2, hp⟩

/-- Newlines cannot hide inside an entry whose encoded line has none. -/
theorem no_newline_entry (e : Str × Str) (l : Str)
    (hl : l = ' ' :: ' ' :: (e.1 ++ ':' :: ' ' :: e.2) ∨
          l = '-' :: ' ' :: (e.1 ++ ':' :: ' ' :: e.2))
    (hnl : ('\n' : Char) ∉ l) :
    ('\n' : Char) ∉ e.1 ∧ ('\n' : Char) ∉ e.2 := by
  rcases hl with rfl | rfl <;>
  · constructor
    · intro hmem
      exact hnl (by simp [hmem])
    · intro hmem
      exact hnl (by simp [hmem])

/-- Decode guarantee: a successful parse yields a well-formed document
when the input lines hold no newlines. -/
theorem parseTasks_wf :
    ∀ (fuel : Nat) (lines : List Str) (d : ExDoc),
      parseTasks fuel lines = some d →
      (∀ l ∈ lines, ('\n' : Char) ∉ l) → wfEx d := by
  intro fuel
  induction fuel with
  | zero =>
    intro lines d h _
    simp [parseTasks] at h
  | succ f ih =>
    intro lines d h hnl
    cases lines with
    | nil =>
      simp only [parseTasks, Option.some.injEq] at h
      subst h
      intro t ht
      simp at ht
    | cons l0 rest0 =>
      rw [parseTasks_succ_ne f _ (by simp)] at h
      split at h
      · simp at h
      case h_2 l rest hdw =>
        split at h
        · simp at h
        case h_2 e1 hpd =>
          split at h
          · simp at h
          case h_2 es hmm =>
            split at h
            case isTrue hnd =>
              split at h
              · simp at h
              case h_2 ts hrec =>
                simp only [Option.some.injEq] at h
                subst h
                have hsubl : ∀ x ∈ l :: rest, x ∈ l0 :: rest0 := by
                  intro x hx
                  have hs : (List.dropWhile isCommentLine (l0 :: rest0)).Sublist
                      (l0 :: rest0) := List.dropWhile_sublist _
                  rw [hdw] at hs
                  exact hs.subset hx
                have hrestl : ∀ x ∈ rest, x ∈ l0 :: rest0 :=
                  fun x hx => hsubl x (List.mem_cons_of_mem _ hx)
                intro t ht
                rcases List.mem_cons.mp ht with rfl | ht2
                · refine ⟨?_, by simp, ?_, hnd⟩
                  · intro c hc
                    constructor
                    · exact List.mem_takeWhile_imp hc
                    · exact hnl c ((List.takeWhile_sublist _).subset hc)
                  · intro e he
                    rcases List.mem_cons.mp he with rfl | he2
                    · rcases parseDashLine_decomp l e hpd with ⟨hle, hke⟩
                      have hnle : ('\n' : Char) ∉ l :=
                        hnl l (hsubl l (List.mem_cons_self _ _))
                      rw [hle] at hnle
                      rcases no_newline_entry e _ (Or.inr rfl) hnle with ⟨h1, h2⟩
                      exact ⟨hke, h1, h2⟩
                    · rcases mapM_parseIndent_decomp _ es hmm e he2 with ⟨l2, hl2, hp⟩
                      rcases parseIndentLine_decomp l2 e hp with ⟨hle, hke⟩
                      have hl2mem : l2 ∈ rest :=
                        (List.takeWhile_sublist _).subset hl2
                      have hnle : ('\n' : Char) ∉ l2 := hnl l2 (hrestl l2 hl2mem)
                      rw [hle] at hnle
                      rcases no_newline_entry e _ (Or.inl rfl) hnle with ⟨h1, h2⟩
                      exact ⟨hke, h1, h2⟩
                · refine ih _ ts hrec ?_ t ht2
                  intro x hx
                  exact hnl x (hrestl x
                    ((List.dropWhile_sublist (l := rest) isIndentLine).subset hx))
            case isFalse => simp at h

/-! ### The comment pass commutes with encoding -/

/-- Apply the comment pass to the stored comments of one task. -/
def subCommentsTask (m full : Str) (t : ExTask) : ExTask :=
  ⟨t.comments.map (commentFixLine m full), t.entries⟩

/-- Apply the comment pass to the stored comments of every task. -/
def subComments (m full : Str) (d : ExDoc) : ExDoc :=
  d.map (subCommentsTask m full)

/-- A non-comment line is untouched by the comment pass. -/
theorem commentFixLine_not_comment (m full l : Str)
    (h : isCommentLine l = false) : commentFixLine m full l = l := by
  unfold commentFixLine
  rw [h]
  simp

/-- Entry lines are not comment lines. -/
theorem encEntriesLines_not_comment (es : List (Str × Str)) :
    ∀ l ∈ encEntriesLines es, isCommentLine l = false := by
  intro l hl
  cases es with
  | nil => simp [encEntriesLines] at hl
  | cons e rest =>
    rw [encEntriesLines_cons] at hl
    rcases List.mem_cons.mp hl with rfl | hl
    · exact isCommentLine_dash e
    · rcases List.mem_map.mp hl with ⟨e2, _, rfl⟩
      exact isCommentLine_indent e2

/-- The comment pass on one task's encoded lines only rewrites the
comments. -/
theorem map_cfl_encTaskLines (m full : Str) (t : ExTask) :
    (encTaskLines t).map (commentFixLine m full) =
      encTaskLines (subCommentsTask m full t) := by
  unfold encTaskLines subCommentsTask
  rw [List.map_append]
  congr 1
  have hstep : ∀ l ∈ encEntriesLines t.entries,
      commentFixLine m full l = l := fun l hl =>
    commentFixLine_not_comment m full l (encEntriesLines_not_comment t.entries l hl)
  calc (encEntriesLines t.entries).map (commentFixLine m full)
      = (encEntriesLines t.entries).map id := List.map_congr_left hstep
    _ = encEntriesLines t.entries := List.map_id _

/-- The comment pass commutes with encoding: fixing the dumped lines is
the same as fixing the stored comments and dumping. -/
theorem commentFixLines_encode (m full : Str) :
    ∀ (d : ExDoc), commentFixLines m full (encodeTasks d) =
      encodeTasks (subComments m full d) := by
  intro d
  induction d with
  | nil => rfl
  | cons t ts ih =>
    have h1 : encodeTasks (t :: ts) = encTaskLines t ++ encodeTasks ts := by
      simp [encodeTasks]
    have h2 : encodeTasks (subComments m full (t :: ts)) =
        encTaskLines (subCommentsTask m full t) ++
          encodeTasks (subComments m full ts) := by
      simp [encodeTasks, subComments]
    unfold commentFixLines at ih ⊢
    rw [h1, List.map_append, ih, h2, map_cfl_encTaskLines]

/-! ### Idempotence of the comment pass -/

/-- The per-line comment pass is idempotent: once the full name is
present, the substitution condition fails. -/
theorem commentFixLine_idem (m full : Str) (l : Str) :
    commentFixLine m full (commentFixLine m full l) = commentFixLine m full l := by
  by_cases hc : (isCommentLine l && containsSub m l && !m.isEmpty &&
      !containsSub full l) = true
  · have hl2 : commentFixLine m full l = replaceSub m full l := by
      unfold commentFixLine
      rw [if_pos hc]
    rcases Bool.and_eq_true .. |>.mp hc with ⟨hc3, _⟩
    rcases Bool.and_eq_true .. |>.mp hc3 with ⟨hc2, hmne⟩
    rcases Bool.and_eq_true .. |>.mp hc2 with ⟨_, hcont⟩
    have hmne2 : m ≠ [] := by
      simpa [List.isEmpty_iff] using hmne
    have hfull : containsSub full (replaceSub m full l) = true :=
      containsSub_replaceSub m full hmne2 l.length l le_rfl hcont
    rw [hl2]
    unfold commentFixLine
    rw [if_neg (by simp [hfull])]
  · have hl2 : commentFixLine m full l = l := by
      unfold commentFixLine
      rw [if_neg hc]
    rw [hl2, hl2]

/-- The comment pass keeps comment lines comment lines when the module
name does not itself start with `#`. -/
theorem commentFixLine_comment (m full : Str) (l : Str)
    (hl : isCommentLine l = true) (hm : m.head? ≠ some '#') :
    isCommentLine (commentFixLine m full l) = true := by
  by_cases hc : (isCommentLine l && containsSub m l && !m.isEmpty &&
      !containsSub full l) = true
  · unfold commentFixLine
    rw [if_pos hc]
    cases l with
    | nil => simp [isCommentLine] at hl
    | cons c rest =>
      have hsh : c = '#' := by simpa [isCommentLine] using hl
      subst hsh
      have hpre : prefixB m ('#' :: rest) = false := by
        cases m with
        | nil =>
          rcases Bool.and_eq_true .. |>.mp hc with ⟨hc3, _⟩
          rcases Bool.and_eq_true .. |>.mp hc3 with ⟨_, hmne⟩
          simp at hmne
        | cons m0 m2 =>
          have hm0 : m0 ≠ '#' := by
            intro h
            exact hm (by simp [h])
          simp only [prefixB]
          have hd : decide (m0 = '#') = false := decide_eq_false hm0
          simp [hd]
      rw [replaceSub_cons_no m full '#' rest hpre]
      rfl
  · unfold commentFixLine
    rw [if_neg hc]
    exact hl

/-- The comment pass introduces no newline when the full name has none. -/
theorem commentFixLine_no_newline (m full : Str) (l : Str)
    (hl : ('\n' : Char) ∉ l) (hf : ('\n' : Char) ∉ full) :
    ('\n' : Char) ∉ commentFixLine m full l := by
  unfold commentFixLine
  split
  · intro hmem
    rcases mem_replaceSub m full '\n' l.length l le_rfl hmem with h | h
    · exact hl h
    · exact hf h
  · exact hl

/-! ### Rename facts -/

/-- The fully-qualified name is longer than the module name, hence
different. -/
theorem fullNameOf_ne (c m : Str) : fullNameOf c m ≠ m := by
  intro h
  have hlen := congrArg List.length h
  simp [fullNameOf] at hlen
  omega

/-- The key list after one dict insertion: unchanged when the key is
already present, the key appended otherwise. -/
theorem keys_dictInsert (acc : List (Str × Str)) (k v : Str) :
    (dictInsert acc k v).map Prod.fst =
      if k ∈ acc.map Prod.fst then acc.map Prod.fst
      else acc.map Prod.fst ++ [k] := by
  unfold dictInsert
  by_cases hmem : k ∈ acc.map Prod.fst
  · rw [if_pos hmem, if_pos hmem, List.map_map]
    apply List.map_congr_left
    intro e _
    by_cases he : e.1 = k <;> simp [he]
  · rw [if_neg hmem, if_neg hmem, List.map_append]
    rfl

/-- Dict insertion keeps the key list duplicate-free. -/
theorem keys_dictInsert_nodup (acc : List (Str × Str)) (k v : Str)
    (hnd : (acc.map Prod.fst).Nodup) :
    ((dictInsert acc k v).map Prod.fst).Nodup := by
  rw [keys_dictInsert]
  by_cases hmem : k ∈ acc.map Prod.fst
  · rw [if_pos hmem]
    exact hnd
  · rw [if_neg hmem]
    refine List.Nodup.append hnd (List.nodup_singleton k) ?_
    intro a ha hb
    rw [List.mem_singleton] at hb
    exact hmem (hb ▸ ha)

/-- Every key after a dict insertion was a previous key or the inserted
one. -/
theorem keys_dictInsert_subset (acc : List (Str × Str)) (k v k2 : Str)
    (h : k2 ∈ (dictInsert acc k v).map Prod.fst) :
    k2 ∈ acc.map Prod.fst ∨ k2 = k := by
  rw [keys_dictInsert] at h
  by_cases hmem : k ∈ acc.map Prod.fst
  · rw [if_pos hmem] at h
    exact Or.inl h
  · rw [if_neg hmem] at h
    rcases List.mem_append.mp h with h1 | h2
    · exact Or.inl h1
    · rw [List.mem_singleton] at h2
      exact Or.inr h2

/-- Folding dict insertions keeps the key list duplicate-free. -/
theorem keys_foldl_nodup :
    ∀ (es acc : List (Str × Str)), (acc.map Prod.fst).Nodup →
      ((es.foldl (fun a e => dictInsert a e.1 e.2) acc).map Prod.fst).Nodup := by
  intro es
  induction es with
  | nil => intro acc h; simpa using h
  | cons e es2 ih =>
    intro acc h
    rw [List.foldl_cons]
    exact ih _ (keys_dictInsert_nodup acc e.1 e.2 h)

/-- Every key after folding dict insertions comes from the accumulator or
from the inserted pairs. -/
theorem keys_foldl_subset :
    ∀ (es acc : List (Str × Str)) (k2 : Str),
      k2 ∈ (es.foldl (fun a e => dictInsert a e.1 e.2) acc).map Prod.fst →
      k2 ∈ acc.map Prod.fst ∨ k2 ∈ es.map Prod.fst := by
  intro es
  induction es with
  | nil => intro acc k2 h; exact Or.inl (by simpa using h)
  | cons e es2 ih =>
    intro acc k2 h
    rw [List.foldl_cons] at h
    rcases ih _ k2 h with h1 | h2
    · rcases keys_dictInsert_subset acc e.1 e.2 k2 h1 with ha | hb
      · exact Or.inl ha
      · exact Or.inr (by simp [hb])
    · exact Or.inr (List.mem_cons_of_mem _ h2)

/-- The `CommentedMap` key list is duplicate-free. -/
theorem commentedMapOf_keys_nodup (es : List (Str × Str)) :
    ((commentedMapOf es).map Prod.fst).Nodup := by
  unfold commentedMapOf
  exact keys_foldl_nodup es [] (by simp)

/-- Every `CommentedMap` key comes from the given pairs. -/
theorem keys_commentedMapOf_subset (es : List (Str × Str)) (k2 : Str)
    (h : k2 ∈ (commentedMapOf es).map Prod.fst) : k2 ∈ es.map Prod.fst := by
  unfold commentedMapOf at h
  rcases keys_foldl_subset es [] k2 h with h1 | h2
  · simp at h1
  · exact h2

/-- Folding dict insertions of pairs with fresh, duplicate-free keys just
appends them. -/
theorem foldl_dictInsert_append :
    ∀ (es acc : List (Str × Str)), (es.map Prod.fst).Nodup →
      (∀ k ∈ es.map Prod.fst, k ∉ acc.map Prod.fst) →
      es.foldl (fun a e => dictInsert a e.1 e.2) acc = acc ++ es := by
  intro es
  induction es with
  | nil => intro acc _ _; simp
  | cons e es2 ih =>
    intro acc hnd hdis
    rw [List.foldl_cons]
    have hnot : e.1 ∉ acc.map Prod.fst := hdis e.1 (by simp)
    have hins : dictInsert acc e.1 e.2 = acc ++ [e] := by
      unfold dictInsert
      rw [if_neg hnot]
    rw [List.map_cons, List.nodup_cons] at hnd
    have hdis2 : ∀ k ∈ es2.map Prod.fst, k ∉ (acc ++ [e]).map Prod.fst := by
      intro k hk
      rw [List.map_append]
      intro hmem
      rcases List.mem_append.mp hmem with h1 | h2
      · exact hdis k (List.mem_cons_of_mem _ hk) h1
      · simp at h2
        exact hnd.1 (h2 ▸ hk)
    rw [hins, ih (acc ++ [e]) hnd.2 hdis2, List.append_assoc]
    rfl

/-- A pair list with duplicate-free keys is unchanged by the
`CommentedMap` construction. -/
theorem commentedMapOf_id (es : List (Str × Str))
    (hnd : (es.map Prod.fst).Nodup) : commentedMapOf es = es := by
  unfold commentedMapOf
  have h := foldl_dictInsert_append es [] hnd (by simp)
  simpa using h

/-- The key list of the renamed pairs, written with the key-level rename
function. -/
theorem mapped_keys_eq (m full : Str) (es : List (Str × Str)) :
    (es.map (fun e => if e.1 = m then (full, e.2) else e)).map Prod.fst =
      (es.map Prod.fst).map (fun k => if k = m then full else k) := by
  simp only [List.map_map]
  apply List.map_congr_left
  intro e _
  by_cases he : e.1 = m <;> simp [he]

/-- Renaming distinct keys keeps them distinct provided the full name is
not already among them when the bare name is. -/
theorem nodup_rename_keys (m full : Str) :
    ∀ (ks : List Str), ks.Nodup → (m ∈ ks → full ∉ ks) →
      (ks.map (fun k => if k = m then full else k)).Nodup := by
  intro ks
  induction ks with
  | nil => intro _ _; simp
  | cons k ks2 ih =>
    intro hnd hcol
    rcases List.nodup_cons.mp hnd with ⟨hk, hnd2⟩
    rw [List.map_cons]
    apply List.nodup_cons.mpr
    refine ⟨?_, ih hnd2 ?_⟩
    · intro hmem
      rcases List.mem_map.mp hmem with ⟨k2, hk2, heq⟩
      by_cases h2 : k2 = m
      · rw [if_pos h2] at heq
        by_cases hkm : k = m
        · rw [if_pos hkm] at heq
          have hkk : k = k2 := hkm.trans h2.symm
          exact hk (hkk ▸ hk2)
        · rw [if_neg hkm] at heq
          have hm_in : m ∈ k :: ks2 := List.mem_cons_of_mem _ (h2 ▸ hk2)
          exact (hcol hm_in) (heq ▸ List.mem_cons_self _ _)
      · rw [if_neg h2] at heq
        by_cases hkm : k = m
        · rw [if_pos hkm] at heq
          have hm_in : m ∈ k :: ks2 := hkm ▸ List.mem_cons_self _ _
          exact (hcol hm_in) (List.mem_cons_of_mem _ (heq ▸ hk2))
        · rw [if_neg hkm] at heq
          exact hk (heq ▸ hk2)
    · intro hm2 hf2
      exact (hcol (List.mem_cons_of_mem _ hm2)) (List.mem_cons_of_mem _ hf2)

/-- On a task with duplicate-free keys and no bare/full collision the
`CommentedMap` collapses nothing: the rename is the plain pointwise map. -/
theorem renameTask_plain (m full : Str) (t : ExTask)
    (hnd : (t.entries.map Prod.fst).Nodup)
    (hcol : m ∈ t.entries.map Prod.fst → full ∉ t.entries.map Prod.fst) :
    renameTask m full t =
      ⟨t.comments, t.entries.map (fun e => if e.1 = m then (full, e.2) else e)⟩ := by
  unfold renameTask
  rcases t with ⟨cs, es⟩
  simp only [ExTask.mk.injEq, true_and]
  apply commentedMapOf_id
  rw [mapped_keys_eq]
  exact nodup_rename_keys m full _ hnd hcol

/-- After the rename no key equals the bare module name. -/
theorem renameTask_keys_ne (m full : Str) (t : ExTask) (hfm : full ≠ m) :
    ∀ e ∈ (renameTask m full t).entries, e.1 ≠ m := by
  intro e he
  have hkey : e.1 ∈ (renameTask m full t).entries.map Prod.fst :=
    List.mem_map_of_mem _ he
  have hsub : e.1 ∈ (t.entries.map
      (fun e => if e.1 = m then (full, e.2) else e)).map Prod.fst :=
    keys_commentedMapOf_subset _ e.1 hkey
  rw [mapped_keys_eq] at hsub
  rcases List.mem_map.mp hsub with ⟨k, _, heq⟩
  by_cases h0 : k = m
  · rw [if_pos h0] at heq
    rw [← heq]
    exact hfm
  · rw [if_neg h0] at heq
    rw [← heq]
    exact h0

/-- A task with duplicate-free keys and without the bare key is unchanged
by the rename. -/
theorem renameTask_id (m full : Str) (t : ExTask)
    (hnd : (t.entries.map Prod.fst).Nodup)
    (h : ∀ e ∈ t.entries, e.1 ≠ m) : renameTask m full t = t := by
  unfold renameTask
  rcases t with ⟨cs, es⟩
  simp only [ExTask.mk.injEq, true_and]
  have hmap : es.map (fun e => if e.1 = m then (full, e.2) else e) = es := by
    calc es.map (fun e => if e.1 = m then (full, e.2) else e)
        = es.map id := List.map_congr_left (fun e he => by simp [h e he])
      _ = es := List.map_id _
  rw [hmap]
  exact commentedMapOf_id es hnd

/-- The rename preserves well-formedness (given a well-formed full name
and no bare/full key collision). -/
theorem wfEx_rename (m full : Str) (d : ExDoc) (hwf : wfEx d)
    (hks : containsSub kvSep full = false) (hnlf : ('\n' : Char) ∉ full)
    (hcol : ∀ t ∈ d, m ∈ t.entries.map Prod.fst →
      full ∉ t.entries.map Prod.fst) :
    wfEx (renameTasks m full d) := by
  intro t2 ht2
  unfold renameTasks at ht2
  rcases List.mem_map.mp ht2 with ⟨t, ht, rfl⟩
  rcases hwf t ht with ⟨hcm, hne, hen, hnd⟩
  rw [renameTask_plain m full t hnd (hcol t ht)]
  refine ⟨hcm, ?_, ?_, ?_⟩
  · simpa using hne
  · intro e he
    rcases List.mem_map.mp he with ⟨e0, he0, heq⟩
    rcases hen e0 he0 with ⟨h1, h2, h3⟩
    by_cases h0 : e0.1 = m
    · rw [if_pos h0] at heq
      rw [← heq]
      exact ⟨hks, hnlf, h3⟩
    · rw [if_neg h0] at heq
      rw [← heq]
      exact ⟨h1, h2, h3⟩
  · show ((t.entries.map
        (fun e => if e.1 = m then (full, e.2) else e)).map Prod.fst).Nodup
    rw [mapped_keys_eq]
    exact nodup_rename_keys m full _ hnd (hcol t ht)

/-- A decodable EXAMPLES text whose single task holds both the
fully-qualified and the bare module key. -/
def sC7cex : Str :=
  "- cisco.ios.ios_interfaces: v1\n  ios_interfaces: v2".data

/-- The task decoded from `sC7cex`. -/
def tC7cex : ExTask :=
  ⟨[], [("cisco.ios.ios_interfaces".data, "v1".data),
        ("ios_interfaces".data, "v2".data)]⟩

/-- C7, counterexample: a decodable task holding both the bare and the
fully-qualified key is collapsed by the `CommentedMap` rebuild — the rename
merges the two entries, keeping the first key position and the last value,
so an entry is dropped and the value list is not preserved. -/
theorem renameTask_collision_cex :
    decodeTasks sC7cex = some [tC7cex] ∧
    (renameTask "ios_interfaces".data
        (fullNameOf "cisco.ios".data "ios_interfaces".data) tC7cex).entries =
      [(fullNameOf "cisco.ios".data "ios_interfaces".data, "v2".data)] ∧
    (renameTask "ios_interfaces".data
        (fullNameOf "cisco.ios".data "ios_interfaces".data) tC7cex).entries.map
      Prod.snd ≠ tC7cex.entries.map Prod.snd := by
  refine ⟨by decide, by decide, by decide⟩

/-- A concrete decoded EXAMPLES sequence. -/
def exC7 : ExDoc :=
  [⟨["# use ios_interfaces".data],
    [("name".data, "do".data), ("ios_interfaces".data, "cfg".data)]⟩]

/-- C7 (amended): in the rename pass of the rewriter, every task keeps its
position; on a task whose keys are pairwise distinct and which does not
hold the bare and the fully-qualified name together, every key equal to
the module name becomes the fully-qualified `collection.module_name` with
its value unchanged, and the whole key order (hence the relative order of
all other keys) is preserved pointwise. (Without these provisos the
`CommentedMap` rebuild merges a bare/full key pair, dropping an entry.) -/
theorem renameTasks_spec (module_name collection : Str) (ex : ExDoc) (i : Nat)
    (t : ExTask) (h : ex[i]? = some t)
    (hnd : (t.entries.map Prod.fst).Nodup)
    (hcol : module_name ∈ t.entries.map Prod.fst →
      fullNameOf collection module_name ∉ t.entries.map Prod.fst) :
    ∃ t2, (renameTasks module_name (fullNameOf collection module_name) ex)[i]? = some t2 ∧
      t2.comments = t.comments ∧
      t2.entries.map Prod.fst = t.entries.map
        (fun e => if e.1 = module_name then fullNameOf collection module_name else e.1) ∧
      t2.entries.map Prod.snd = t.entries.map Prod.snd := by
  refine ⟨renameTask module_name (fullNameOf collection module_name) t, ?_, ?_, ?_, ?_⟩
  · unfold renameTasks
    rw [List.getElem?_map, h]
    rfl
  · rw [renameTask_plain module_name _ t hnd hcol]
  · rw [renameTask_plain module_name _ t hnd hcol]
    simp only [List.map_map]
    apply List.map_congr_left
    intro e _
    by_cases he : e.1 = module_name <;> simp [he]
  · rw [renameTask_plain module_name _ t hnd hcol]
    simp only [List.map_map]
    apply List.map_congr_left
    intro e _
    by_cases he : e.1 = module_name <;> simp [he]

/-- C7, witness at a concrete task. -/
theorem renameTasks_spec_witness :
    ∃ t2, (renameTasks "ios_interfaces".data
        (fullNameOf "cisco.ios".data "ios_interfaces".data) exC7)[0]? = some t2 ∧
      t2.comments = (exC7.get ⟨0, by decide⟩).comments ∧
      t2.entries.map Prod.fst = (exC7.get ⟨0, by decide⟩).entries.map
        (fun e => if e.1 = "ios_interfaces".data
          then fullNameOf "cisco.ios".data "ios_interfaces".data else e.1) ∧
      t2.entries.map Prod.snd = (exC7.get ⟨0, by decide⟩).entries.map Prod.snd :=
  renameTasks_spec "ios_interfaces".data "cisco.ios".data exC7 0
    (exC7.get ⟨0, by decide⟩) (by decide) (by decide) (by decide)

/-- The comment pass preserves well-formedness. -/
theorem wfEx_subComments (m full : Str) (d : ExDoc) (hwf : wfEx d)
    (hm : m.head? ≠ some '#') (hnlf : ('\n' : Char) ∉ full) :
    wfEx (subComments m full d) := by
  intro t2 ht2
  unfold subComments at ht2
  rcases List.mem_map.mp ht2 with ⟨t, ht, rfl⟩
  rcases hwf t ht with ⟨hcm, hne, hen, hnd⟩
  refine ⟨?_, hne, hen, hnd⟩
  intro c hc
  rcases List.mem_map.mp hc with ⟨c0, hc0, rfl⟩
  rcases hcm c0 hc0 with ⟨h1, h2⟩
  exact ⟨commentFixLine_comment m full c0 h1 hm,
    commentFixLine_no_newline m full c0 h2 hnlf⟩

/-- The comment pass on stored comments is idempotent. -/
theorem subComments_idem (m full : Str) (d : ExDoc) :
    subComments m full (subComments m full d) = subComments m full d := by
  unfold subComments
  rw [List.map_map]
  apply List.map_congr_left
  intro t _
  show subCommentsTask m full (subCommentsTask m full t) = subCommentsTask m full t
  unfold subCommentsTask
  simp only [ExTask.mk.injEq, and_true]
  rw [List.map_map]
  apply List.map_congr_left
  intro c _
  exact commentFixLine_idem m full c

/-- A decoded document is never empty (the split line list never is). -/
theorem decodeTasks_ne_nil (s : Str) (ex : ExDoc)
    (h : decodeTasks s = some ex) : ex ≠ [] := by
  unfold decodeTasks at h
  cases hsp : splitNL s with
  | nil => exact absurd hsp (splitOnChar_ne_nil '\n' s)
  | cons l0 rest0 =>
    rw [hsp] at h
    rw [parseTasks_succ_ne _ _ (by simp)] at h
    repeat' split at h
    all_goals (try simp at h)
    all_goals (subst h; simp)

/-- C6: the example rewriter is idempotent.  For a decodable EXAMPLES
value whose module name is non-empty, does not start with `#`, whose
fully-qualified name is well-formed as a key, and whose tasks never hold
the bare and the full name as keys at once, applying the rewriter to its
own output returns that output unchanged: on the second run no task key
equals the bare module name and every comment line already contains the
fully-qualified name or never contained the bare one. -/
theorem update_examples_text_idem (module_name collection s : Str) (ex : ExDoc)
    (hdec : decodeTasks s = some ex)
    (hmh : module_name.head? ≠ some '#')
    (hks : containsSub kvSep (fullNameOf collection module_name) = false)
    (hnlf : ('\n' : Char) ∉ fullNameOf collection module_name)
    (hcol : ∀ t ∈ ex, module_name ∈ t.entries.map Prod.fst →
      fullNameOf collection module_name ∉ t.entries.map Prod.fst) :
    ∃ out, update_examples_text module_name collection s = some out ∧
      update_examples_text module_name collection out = some out := by
  have hwf : wfEx ex := parseTasks_wf _ _ ex hdec
    (fun l hl => splitOnChar_no_sep '\n' s l hl)
  have hfm : fullNameOf collection module_name ≠ module_name :=
    fullNameOf_ne collection module_name
  have hwf1 : wfEx (renameTasks module_name (fullNameOf collection module_name) ex) :=
    wfEx_rename module_name _ ex hwf hks hnlf hcol
  have hwf2 : wfEx (subComments module_name (fullNameOf collection module_name)
      (renameTasks module_name (fullNameOf collection module_name) ex)) :=
    wfEx_subComments module_name _ _ hwf1 hmh hnlf
  have hexne : ex ≠ [] := decodeTasks_ne_nil s ex hdec
  have hex2ne : subComments module_name (fullNameOf collection module_name)
      (renameTasks module_name (fullNameOf collection module_name) ex) ≠ [] := by
    intro h
    apply hexne
    have h1 := congrArg List.length h
    unfold subComments renameTasks at h1
    simp at h1
    exact h1
  have hencne : encodeTasks (subComments module_name
      (fullNameOf collection module_name)
      (renameTasks module_name (fullNameOf collection module_name) ex)) ≠ [] := by
    cases hc : subComments module_name (fullNameOf collection module_name)
        (renameTasks module_name (fullNameOf collection module_name) ex) with
    | nil => exact absurd hc hex2ne
    | cons t2 ts2 =>
      exact encodeTasks_ne_nil t2 ts2 (hwf2 t2 (hc ▸ List.mem_cons_self _ _))
  have hout1 : update_examples_text module_name collection s =
      some (joinNL (encodeTasks (subComments module_name
        (fullNameOf collection module_name)
        (renameTasks module_name (fullNameOf collection module_name) ex)))) := by
    unfold update_examples_text
    rw [hdec]
    show some (joinNL (commentFixLines module_name
      (fullNameOf collection module_name)
      (encodeTasks (renameTasks module_name
        (fullNameOf collection module_name) ex)))) = _
    rw [commentFixLines_encode]
  have hnl2 : ∀ l ∈ encodeTasks (subComments module_name
      (fullNameOf collection module_name)
      (renameTasks module_name (fullNameOf collection module_name) ex)),
      ('\n' : Char) ∉ l := encodeTasks_no_newline _ hwf2
  have hsplit : splitNL (joinNL (encodeTasks (subComments module_name
      (fullNameOf collection module_name)
      (renameTasks module_name (fullNameOf collection module_name) ex)))) =
      encodeTasks (subComments module_name (fullNameOf collection module_name)
        (renameTasks module_name (fullNameOf collection module_name) ex)) :=
    splitNL_joinNL _ hencne hnl2
  have hdec2 : decodeTasks (joinNL (encodeTasks (subComments module_name
      (fullNameOf collection module_name)
      (renameTasks module_name (fullNameOf collection module_name) ex)))) =
      some (subComments module_name (fullNameOf collection module_name)
        (renameTasks module_name (fullNameOf collection module_name) ex)) := by
    unfold decodeTasks
    rw [hsplit]
    exact parseTasks_encode _ _ hwf2 (by omega)
  have hren2 : renameTasks module_name (fullNameOf collection module_name)
      (subComments module_name (fullNameOf collection module_name)
        (renameTasks module_name (fullNameOf collection module_name) ex)) =
      subComments module_name (fullNameOf collection module_name)
        (renameTasks module_name (fullNameOf collection module_name) ex) := by
    unfold renameTasks
    have hstep : ∀ t2 ∈ subComments module_name (fullNameOf collection module_name)
        (renameTasks module_name (fullNameOf collection module_name) ex),
        renameTask module_name (fullNameOf collection module_name) t2 = t2 := by
      intro t2 ht2
      unfold subComments at ht2
      rcases List.mem_map.mp ht2 with ⟨t1, ht1, rfl⟩
      unfold renameTasks at ht1
      rcases List.mem_map.mp ht1 with ⟨t0, _, rfl⟩
      apply renameTask_id
      · exact commentedMapOf_keys_nodup _
      · intro e he
        exact renameTask_keys_ne module_name _ t0 hfm e he
    calc (subComments module_name (fullNameOf collection module_name)
          (renameTasks module_name (fullNameOf collection module_name) ex)).map
            (renameTask module_name (fullNameOf collection module_name))
        = (subComments module_name (fullNameOf collection module_name)
            (renameTasks module_name (fullNameOf collection module_name) ex)).map id :=
          List.map_congr_left hstep
      _ = _ := List.map_id _
  have hfix2 : commentFixLines module_name (fullNameOf collection module_name)
      (encodeTasks (subComments module_name (fullNameOf collection module_name)
        (renameTasks module_name (fullNameOf collection module_name) ex))) =
      encodeTasks (subComments module_name (fullNameOf collection module_name)
        (renameTasks module_name (fullNameOf collection module_name) ex)) := by
    rw [commentFixLines_encode, subComments_idem]
  refine ⟨joinNL (encodeTasks (subComments module_name
    (fullNameOf collection module_name)
    (renameTasks module_name (fullNameOf collection module_name) ex))), hout1, ?_⟩
  unfold update_examples_text
  rw [hdec2]
  show some (joinNL (commentFixLines module_name
      (fullNameOf collection module_name)
      (encodeTasks (renameTasks module_name (fullNameOf collection module_name)
        (subComments module_name (fullNameOf collection module_name)
          (renameTasks module_name (fullNameOf collection module_name) ex)))))) = _
  rw [hren2, hfix2]

/-- A concrete EXAMPLES text with a comment naming the bare module. -/
def sC6 : Str :=
  "# example with ios_interfaces\n- name: do\n  ios_interfaces: cfg".data

/-- The document decoded from `sC6`. -/
def exC6 : ExDoc :=
  [⟨["# example with ios_interfaces".data],
    [("name".data, "do".data), ("ios_interfaces".data, "cfg".data)]⟩]

/-- C6, witness: idempotence of the rewriter at a concrete input. -/
theorem update_examples_text_idem_witness :
    ∃ out, update_examples_text "ios_interfaces".data "cisco.ios".data sC6 =
        some out ∧
      update_examples_text "ios_interfaces".data "cisco.ios".data out = some out :=
  update_examples_text_idem "ios_interfaces".data "cisco.ios".data sC6 exC6
    (by decide) (by decide) (by decide) (by decide) (by decide)

/-! ## The per-file pipeline (`process`)

The driver retrieves the module name from the DOCUMENTATION assignment
(zero or multiple matches, or a falsy name, skip the whole file), then
runs the four transformers in order, writing each transformer's result
back into the file state (mutation of the located nodes). -/

/-- A file state: the top-level statements. -/
abbrev FState := List PyStmt

/-- A pipeline step over the file state; `none` models an uncaught
exception aborting the batch. -/
abbrev Step := FState → Option (FState × List Str)

/-- `retrieve_module_name`: read the `module` field of the decoded
DOCUMENTATION document; warn and yield no name unless there is exactly
one match. -/
def retrieve_module_name (bodypart : List PyStmt) : Option (Option Str × List Str) :=
  match bodypart with
  | [.assignS _ _ (.strv v)] =>
    match decodeMap v with
    | none => none
    | some doc =>
      match lookupScalar "module".data doc with
      | none => none
      | some n => some (some n, [])
  | [.assignS _ _ (.dictv _)] => none
  | [.exprS] => none
  | _ => some (none, [warnDoc])

/-- Does this statement match the located assignment name? -/
def isMatchStmt (name : Str) : PyStmt → Bool
  | .assignS t _ _ => targetIdAttr t = some name
  | .exprS => false

/-- Write a replacement node over the first matching assignment (the node
the locator's head aliases). -/
def replaceFirstAssign (name : Str) (new : PyStmt) : FState → FState
  | [] => []
  | s :: rest =>
    if isMatchStmt name s then new :: rest
    else s :: replaceFirstAssign name new rest

/-- Reflect a transformer's single-match output back into the file
state; with zero or several matches nothing was mutated. -/
def writeBack (name : Str) (bp : List PyStmt) (st : FState) : FState :=
  match bp with
  | [s] => replaceFirstAssign name s st
  | _ => st

/-- The metadata step of the pipeline. -/
def stepMeta : Step := fun st =>
  match find_assigment_in_ast "ANSIBLE_METADATA".data st with
  | none => none
  | some bp =>
    match update_metdata bp with
    | (bp2, lg) => some (writeBack "ANSIBLE_METADATA".data bp2 st, lg)

/-- The documentation step of the pipeline. -/
def stepDoc : Step := fun st =>
  match find_assigment_in_ast "DOCUMENTATION".data st with
  | none => none
  | some bp =>
    match update_documentation bp with
    | none => none
    | some (bp2, lg) => some (writeBack "DOCUMENTATION".data bp2 st, lg)

/-- The short-description step of the pipeline. -/
def stepShort (mn : Str) : Step := fun st =>
  match find_assigment_in_ast "RETURN".data st with
  | none => none
  | some rbp =>
    match find_assigment_in_ast "DOCUMENTATION".data st with
    | none => none
    | some dbp =>
      match update_short_description rbp dbp mn with
      | none => none
      | some (rbp2, dbp2, lg) =>
        some (writeBack "DOCUMENTATION".data dbp2
          (writeBack "RETURN".data rbp2 st), lg)

/-- The examples step of the pipeline. -/
def stepEx (mn coll : Str) : Step := fun st =>
  match find_assigment_in_ast "EXAMPLES".data st with
  | none => none
  | some bp =>
    match update_examples bp mn coll with
    | none => none
    | some (bp2, lg) => some (writeBack "EXAMPLES".data bp2 st, lg)

/-- Run steps in order, accumulating the log. -/
def runSteps : List Step → FState → Option (FState × List Str)
  | [], st => some (st, [])
  | s :: rest, st =>
    match s st with
    | none => none
    | some (st2, lg) =>
      match runSteps rest st2 with
      | none => none
      | some (st3, lg2) => some (st3, lg ++ lg2)

/-- The four transformers in driver order. -/
def runTransformers (mn coll : Str) : FState → Option (FState × List Str) :=
  runSteps [stepMeta, stepDoc, stepShort mn, stepEx mn coll]

/-- The skip log line of the driver. -/
def warnSkip : Str := "Skipped: No module name found".data

/-- One file of the driver loop: module-name retrieval, then the four
transformers. -/
def processFile (coll : Str) (st : FState) : Option (FState × List Str) :=
  match find_assigment_in_ast "DOCUMENTATION".data st with
  | none => none
  | some bp =>
    match retrieve_module_name bp with
    | none => none
    | some (none, lg) => some (st, lg ++ [warnSkip])
    | some (some mn, lg) =>
      if mn = [] then some (st, lg ++ [warnSkip])
      else
        match runTransformers mn coll st with
        | none => none
        | some (st2, lg2) => some (st2, lg ++ lg2)

/-! ### Write-back of an unchanged body part is the identity -/

/-- Replacing the first match with itself changes nothing. -/
theorem replaceFirst_self (name : Str) :
    ∀ (st : FState) (s : PyStmt) (rest : List PyStmt),
      find_assigment_in_ast name st = some (s :: rest) →
      replaceFirstAssign name s st = st := by
  intro st
  induction st with
  | nil =>
    intro s rest h
    simp [find_assigment_in_ast] at h
  | cons s0 st2 ih =>
    intro s rest h
    cases s0 with
    | exprS =>
      simp only [find_assigment_in_ast] at h
      show (if isMatchStmt name PyStmt.exprS then s :: st2
        else PyStmt.exprS :: replaceFirstAssign name s st2) = PyStmt.exprS :: st2
      rw [if_neg (by simp [isMatchStmt])]
      rw [ih s rest h]
    | assignS t ts v =>
      simp only [find_assigment_in_ast] at h
      cases ht : targetIdAttr t with
      | none => rw [ht] at h; simp at h
      | some id0 =>
        rw [ht] at h
        cases hf : find_assigment_in_ast name st2 with
        | none => rw [hf] at h; simp at h
        | some tl =>
          rw [hf] at h
          have h2 : some (if id0 = name then PyStmt.assignS t ts v :: tl else tl) =
              some (s :: rest) := h
          by_cases hid : id0 = name
          · rw [if_pos hid] at h2
            simp only [Option.some.injEq, List.cons.injEq] at h2
            show (if isMatchStmt name (PyStmt.assignS t ts v) then s :: st2
              else PyStmt.assignS t ts v :: replaceFirstAssign name s st2) =
              PyStmt.assignS t ts v :: st2
            rw [if_pos (by simp [isMatchStmt, ht, hid])]
            rw [← h2.1]
          · rw [if_neg hid] at h2
            simp only [Option.some.injEq] at h2
            show (if isMatchStmt name (PyStmt.assignS t ts v) then s :: st2
              else PyStmt.assignS t ts v :: replaceFirstAssign name s st2) =
              PyStmt.assignS t ts v :: st2
            rw [if_neg (by simp [isMatchStmt, ht, hid])]
            rw [ih s rest (by rw [hf, h2])]

/-- Writing back the unchanged located matches is the identity. -/
theorem writeBack_self (name : Str) (st : FState) (bp : List PyStmt)
    (h : find_assigment_in_ast name st = some bp) : writeBack name bp st = st := by
  cases bp with
  | nil => rfl
  | cons s rest =>
    cases rest with
    | nil => exact replaceFirst_self name st s [] h
    | cons s2 r2 => rfl

/-! ### The warn-and-continue shape of the transformers -/

/-- With not exactly one match the metadata transformer warns and returns
its input. -/
theorem update_metdata_other (bp : List PyStmt) (h : bp.length ≠ 1) :
    update_metdata bp = (bp, [warnMeta]) := by
  cases bp with
  | nil => rfl
  | cons b bs =>
    cases bs with
    | nil => simp at h
    | cons b2 bs2 => cases b <;> rfl

/-- With not exactly one RETURN match the short-description transformer
warns and returns its inputs. -/
theorem update_short_description_other (retrn documentation : List PyStmt)
    (mn : Str) (h : retrn.length ≠ 1) :
    update_short_description retrn documentation mn =
      some (retrn, documentation, [warnRet]) := by
  cases retrn with
  | nil => rfl
  | cons b bs =>
    cases bs with
    | nil => simp at h
    | cons b2 bs2 =>
      cases b with
      | exprS => rfl
      | assignS t2 ts2 v2 => cases v2 <;> rfl

/-- With not exactly one match the examples transformer warns and returns
its input. -/
theorem update_examples_other (bp : List PyStmt) (mn coll : Str)
    (h : bp.length ≠ 1) :
    update_examples bp mn coll = some (bp, [warnEx]) := by
  cases bp with
  | nil => rfl
  | cons b bs =>
    cases bs with
    | nil => simp at h
    | cons b2 bs2 =>
      cases b with
      | exprS => rfl
      | assignS t2 ts2 v2 => cases v2 <;> rfl

/-- A step that warns without touching the state prepends its warning to
the rest of the pipeline. -/
theorem runSteps_cons_warn (s : Step) (rest : List Step) (st : FState) (w : Str)
    (h : s st = some (st, [w])) :
    runSteps (s :: rest) st = (runSteps rest st).map (fun p => (p.1, w :: p.2)) := by
  have hcons : runSteps (s :: rest) st =
      (match s st with
       | none => none
       | some (st2, lg) =>
         match runSteps rest st2 with
         | none => none
         | some (st3, lg2) => some (st3, lg ++ lg2)) := rfl
  rw [hcons, h]
  show (match runSteps rest st with
        | none => (none : Option (FState × List Str))
        | some (st3, lg2) => some (st3, [w] ++ lg2)) =
    (runSteps rest st).map (fun p => (p.1, w :: p.2))
  cases hr : runSteps rest st with
  | none => rfl
  | some p =>
    rcases p with ⟨st3, lg2⟩
    rfl

/-- A file with only a metadata assignment and no DOCUMENTATION. -/
def metaOldSt : FState :=
  [.assignS (.nameT "ANSIBLE_METADATA".data) [] (.strv "old: x".data)]

/-- C3, counterexample: with zero DOCUMENTATION matches the driver skips
the whole file at module-name retrieval (after a warning), so the
metadata normalizer - which would have changed the state - never runs;
processing does not continue with the subsequent transformers. -/
theorem processFile_doc_skip_cex :
    processFile "cisco.ios".data metaOldSt =
      some (metaOldSt, [warnDoc, warnSkip]) ∧
    stepMeta metaOldSt =
      some ([PyStmt.assignS (.nameT "ANSIBLE_METADATA".data) [] metaVal], []) ∧
    ([PyStmt.assignS (.nameT "ANSIBLE_METADATA".data) [] metaVal] : FState) ≠
      metaOldSt := by
  decide

/-- C3, amended: for the ANSIBLE_METADATA, RETURN and EXAMPLES
assignments, zero or multiple matches downgrade that transformer to a
warning no-op on the file state, and running the pipeline from that step
equals running the remaining steps with the warning prepended (the file
is not skipped).  (For DOCUMENTATION the driver instead skips the whole
file during module-name retrieval.) -/
theorem step_warn_noop (st : FState) (mn coll : Str) (s : Step) (rest : List Step)
    (h : (s = stepMeta ∧ ∃ bp,
            find_assigment_in_ast "ANSIBLE_METADATA".data st = some bp ∧
            bp.length ≠ 1) ∨
         (s = stepShort mn ∧ ∃ bp,
            find_assigment_in_ast "RETURN".data st = some bp ∧
            bp.length ≠ 1) ∨
         (s = stepEx mn coll ∧ ∃ bp,
            find_assigment_in_ast "EXAMPLES".data st = some bp ∧
            bp.length ≠ 1)) :
    ∃ w, s st = some (st, [w]) ∧
      runSteps (s :: rest) st =
        (runSteps rest st).map (fun p => (p.1, w :: p.2)) := by
  rcases h with ⟨rfl, bp, hfind, hlen⟩ | ⟨rfl, bp, hfind, hlen⟩ |
    ⟨rfl, bp, hfind, hlen⟩
  · have hstep : stepMeta st = some (st, [warnMeta]) := by
      unfold stepMeta
      rw [hfind]
      show (match update_metdata bp with
            | (bp2, lg) =>
              some (writeBack "ANSIBLE_METADATA".data bp2 st, lg)) =
        some (st, [warnMeta])
      rw [update_metdata_other bp hlen]
      show some (writeBack "ANSIBLE_METADATA".data bp st, [warnMeta]) =
        some (st, [warnMeta])
      rw [writeBack_self _ _ _ hfind]
    exact ⟨warnMeta, hstep, runSteps_cons_warn _ rest st _ hstep⟩
  · have hsome : (find_assigment_in_ast "RETURN".data st).isSome = true := by
      rw [hfind]
      rfl
    have hok := (find_ok_iff "RETURN".data st).mp hsome
    have hdocsome := (find_ok_iff "DOCUMENTATION".data st).mpr hok
    have hstep : stepShort mn st = some (st, [warnRet]) := by
      unfold stepShort
      rw [hfind]
      show (match find_assigment_in_ast "DOCUMENTATION".data st with
            | none => none
            | some dbp =>
              match update_short_description bp dbp mn with
              | none => none
              | some (rbp2, dbp2, lg) =>
                some (writeBack "DOCUMENTATION".data dbp2
                  (writeBack "RETURN".data rbp2 st), lg)) = some (st, [warnRet])
      cases hdoc : find_assigment_in_ast "DOCUMENTATION".data st with
      | none =>
        rw [hdoc] at hdocsome
        simp at hdocsome
      | some dbp =>
        show (match update_short_description bp dbp mn with
              | none => none
              | some (rbp2, dbp2, lg) =>
                some (writeBack "DOCUMENTATION".data dbp2
                  (writeBack "RETURN".data rbp2 st), lg)) = some (st, [warnRet])
        rw [update_short_description_other bp dbp mn hlen]
        show some (writeBack "DOCUMENTATION".data dbp
          (writeBack "RETURN".data bp st), [warnRet]) = some (st, [warnRet])
        rw [writeBack_self _ _ _ hfind, writeBack_self _ _ _ hdoc]
    exact ⟨warnRet, hstep, runSteps_cons_warn _ rest st _ hstep⟩
  · have hstep : stepEx mn coll st = some (st, [warnEx]) := by
      unfold stepEx
      rw [hfind]
      show (match update_examples bp mn coll with
            | none => none
            | some (bp2, lg) =>
              some (writeBack "EXAMPLES".data bp2 st, lg)) = some (st, [warnEx])
      rw [update_examples_other bp mn coll hlen]
      show some (writeBack "EXAMPLES".data bp st, [warnEx]) = some (st, [warnEx])
      rw [writeBack_self _ _ _ hfind]
    exact ⟨warnEx, hstep, runSteps_cons_warn _ rest st _ hstep⟩

/-- C3, witness: an empty file has zero metadata matches; the metadata
step warns and no-ops and the pipeline continues. -/
theorem step_warn_noop_witness :
    ∃ w, stepMeta ([] : FState) = some ([], [w]) ∧
      runSteps [stepMeta] ([] : FState) =
        (runSteps [] ([] : FState)).map (fun p => (p.1, w :: p.2)) :=
  step_warn_noop [] "m".data "c".data stepMeta []
    (Or.inl ⟨rfl, [], by decide, by decide⟩)

end CollectionPrep
